import Mathlib

/-!
Verification of the pyflwdir-rs flow-direction graph engine.

This file shallowly embeds the Rust sources (core_d8.rs, core.rs, flwdir.rs)
into Lean and proves or refutes the specified properties.

Modelling conventions:
- 2D u8 rasters are flat row-major lists of Nat (each entry < 256),
  together with the shape (nrows, ncols); cell access d8[[row, col]]
  becomes indexing at row * ncols + col, exactly as ndarray stores it.
- usize / i32 / i8 / isize values are Nat or Int; the precise wrapping
  casts of the Rust code (idx_ds as usize, idx0 as i32, i8 increment)
  are modelled by the explicit functions asUsize, toI32, i8wrap below.
- Chunked loops in the source (processing in blocks of 8/16/64 cells)
  visit exactly the indices 0..size in increasing order and carry no
  state across chunk boundaries beyond the accumulating arrays, so they
  are embedded as single folds or maps over List.range size.
- Mutable arrays that are updated through a loop are modelled as
  functions Nat -> value updated with Function.update; arrays that are
  only built pointwise or compared for equality are modelled as lists.
-/

namespace Pyflwdir

/-- The value of the cast `x as usize` in Rust applied to an i32/isize value,
on a 64-bit platform: reduction modulo 2^64 (sign extension then
reinterpretation). -/
def asUsize (x : Int) : Nat := (x % 18446744073709551616).toNat

/-- The value of the cast `x as i32` in Rust applied to a usize value:
reduction modulo 2^32 into the signed range. -/
def toI32 (x : Nat) : Int :=
  if (x : Int) % 4294967296 < 2147483648 then (x : Int) % 4294967296
  else (x : Int) % 4294967296 - 4294967296

/-- Wrapping i8 arithmetic: the value of an i8 after a (release-mode,
wrapping) increment chain, reduced into the signed byte range. -/
def i8wrap (x : Int) : Int := (x + 128) % 256 - 128

/-! ## core_d8.rs: the direction codec -/

/-- Entry of the static DR_LOOKUP table of core_d8.rs: the array is
zero-initialised and the 8 compass codes (N=64, NE=128, E=1, SE=2, S=4,
SW=8, W=16, NW=32) get their row offsets. -/
def DRval (v : Nat) : Int :=
  if v = 64 then -1 else if v = 128 then -1 else if v = 1 then 0
  else if v = 2 then 1 else if v = 4 then 1 else if v = 8 then 1
  else if v = 16 then 0 else if v = 32 then -1 else 0

/-- Entry of the static DC_LOOKUP table of core_d8.rs (column offsets). -/
def DCval (v : Nat) : Int :=
  if v = 64 then 0 else if v = 128 then 1 else if v = 1 then 1
  else if v = 2 then 1 else if v = 4 then 0 else if v = 8 then -1
  else if v = 16 then -1 else if v = 32 then -1 else 0

/-- Entry of the static VALID_LOOKUP table of core_d8.rs: true exactly for
the 8 compass codes and the pit code 0. -/
def VALIDval (v : Nat) : Bool :=
  v = 64 || v = 128 || v = 1 || v = 2 || v = 4 || v = 8 || v = 16 || v = 32 || v = 0

/-- The 256-entry DR_LOOKUP table. -/
def DR_LOOKUP : List Int := (List.range 256).map DRval

/-- The 256-entry DC_LOOKUP table. -/
def DC_LOOKUP : List Int := (List.range 256).map DCval

/-- The 256-entry VALID_LOOKUP table. -/
def VALID_LOOKUP : List Bool := (List.range 256).map VALIDval

/-- core_d8.rs drdc: delta row / delta col for a D8 value, read from the
two lookup tables (the u8 argument is a Nat below 256). -/
def drdc (d8 : Nat) : Int × Int := (DR_LOOKUP.getD d8 0, DC_LOOKUP.getD d8 0)

/-- One cell of core_d8.rs d8_from_array: pit flows to itself; a valid
direction whose target is inside the grid flows to the target linear
index; everything else (invalid code or out-of-bounds target) flows to
itself.  The cell read d8[[row, col]] is at flat offset row*ncols + col. -/
def d8_cell (nrows ncols : Nat) (d8 : List Nat) (idx : Nat) : Nat :=
  let row := idx / ncols
  let col := idx % ncols
  let v := d8.getD (row * ncols + col) 0
  if v = 0 then idx
  else if VALID_LOOKUP.getD v false = true then
    let dr := DR_LOOKUP.getD v 0
    let dc := DC_LOOKUP.getD v 0
    let rowDs := (row : Int) + dr
    let colDs := (col : Int) + dc
    if 0 ≤ rowDs ∧ rowDs < (nrows : Int) ∧ 0 ≤ colDs ∧ colDs < (ncols : Int) then
      rowDs.toNat * ncols + colDs.toNat
    else idx
  else idx

/-- core_d8.rs d8_from_array: flat downstream-index array of a 2D D8
raster.  The chunked loops of the source visit idx = 0..size in order and
each cell is computed independently, hence a single map. -/
def d8_from_array (nrows ncols : Nat) (d8 : List Nat) : List Nat :=
  (List.range (nrows * ncols)).map (d8_cell nrows ncols d8)

/-- The local reverse lookup table of core_d8.rs d8_to_array, in source
order: (code, delta row, delta col). -/
def directionsD8 : List (Nat × Int × Int) :=
  [(64, -1, 0), (128, -1, 1), (1, 0, 1), (2, 1, 1),
   (4, 1, 0), (8, 1, -1), (16, 0, -1), (32, -1, -1)]

/-- One cell of core_d8.rs d8_to_array: self-loops decode to pit (0); an
in-range downstream index is matched against the 8 offsets (first match
wins, as in the break-on-match source loop); unmatched or out-of-range
cells keep the D8_NODATA (255) initialisation. -/
def d8_to_cell (ncols size : Nat) (idxs_ds : List Nat) (idx : Nat) : Nat :=
  let row := idx / ncols
  let col := idx % ncols
  let idxDs := idxs_ds.getD idx 0
  if idxDs = idx then 0
  else if idxDs < size then
    let dr : Int := ((idxDs / ncols : Nat) : Int) - (row : Int)
    let dc : Int := ((idxDs % ncols : Nat) : Int) - (col : Int)
    match directionsD8.find? (fun t => t.2.1 == dr && t.2.2 == dc) with
    | some t => t.1
    | none => 255
  else 255

/-- core_d8.rs d8_to_array: decode a downstream-index array back to a flat
row-major D8 raster of the given shape. -/
def d8_to_array (nrows ncols : Nat) (idxs_ds : List Nat) : List Nat :=
  (List.range (nrows * ncols)).map (d8_to_cell ncols (nrows * ncols) idxs_ds)

/-! ## core.rs: rank, upstream analysis, topological sequence -/

/-- The value of the cast `x as isize` in Rust applied to a usize value:
reduction modulo 2^64 into the signed range. -/
def toI64 (x : Nat) : Int :=
  if (x : Int) % 18446744073709551616 < 9223372036854775808 then
    (x : Int) % 18446744073709551616
  else (x : Int) % 18446744073709551616 - 18446744073709551616

/-- The inner follow-the-flow-path loop of core.rs rank.  The explicit
visited bitset of the source is true exactly on the cells of the current
path (a bit is set when a cell is pushed onto idxs_lst and cleared again
in every exit branch), so it is modelled by membership in the path list.
The path list holds the pushed cells most-recent first, i.e. it is the
reverse of the Rust idxs_lst vector.  The returned Int is the rnk value
the Rust loop breaks with (-2 abandons the path, -1 means the head is a
pit, r >= 0 means the walk hit an already resolved cell of rank r).  The
fuel argument only makes the recursion structural; it is shown below that
with fuel = n + 1 it is never exhausted (the source loop needs no fuel
because each iteration pushes a previously unvisited cell). -/
def walk (idxs : List Int) (ranks : Nat → Int) (path : List Nat) (idx0 : Nat)
    (idxDs : Int) : Nat → Option (Int × List Nat)
  | 0 => none
  | fuel + 1 =>
    let n := idxs.length
    let d := asUsize idxDs
    if n ≤ d then some (-2, path)
    else if 0 ≤ ranks d then some (ranks d, path)
    else if idxDs = toI32 idx0 then some (-1, path)
    else if ranks d = -1 ∨ d ∈ path then some (-2, path)
    else walk idxs ranks (d :: path) d (idxs.getD d 0) fuel

/-- The backward rank-assignment loop of core.rs rank:
idxs_lst.iter().rev() visits the most recently pushed cell first, which
is the head of the path list here; rnk and n_count are incremented per
cell. -/
def assignRanks : List Nat → Int → (Nat → Int) → Nat → (Nat → Int) × Nat
  | [], _, ranks, nc => (ranks, nc)
  | idx :: rest, rnk, ranks, nc =>
    assignRanks rest (rnk + 1) (Function.update ranks idx (rnk + 1)) (nc + 1)

/-- The invalidation branches of core.rs rank: every cell of the current
path gets rank -1. -/
def invalidate (path : List Nat) (ranks : Nat → Int) : Nat → Int :=
  path.foldl (fun r idx => Function.update r idx (-1)) ranks

/-- One iteration of the outer loop of core.rs rank, for start cell idx0:
skip missing-value (-1) entries and already processed cells, otherwise
follow the path and either invalidate it or assign ranks backward. -/
def processOne (idxs : List Int) (st : (Nat → Int) × Nat) (idx0 : Nat) :
    (Nat → Int) × Nat :=
  let ranks := st.1
  let ds0 := idxs.getD idx0 0
  if ds0 = -1 ∨ ranks idx0 ≠ -9999 then st
  else
    match walk idxs ranks [idx0] idx0 ds0 (idxs.length + 1) with
    | none => st
    | some (rnk, path) =>
      if rnk = -2 then (invalidate path ranks, st.2)
      else assignRanks path rnk ranks st.2

/-- core.rs rank.  The pits argument is accepted and never read, exactly
as the underscore-named parameter of the source.  The chunked outer loops
visit idx0_start = 0..n in increasing order, hence a single fold.
Returns the rank array (as a function on cell indices, every cell
initialised to -9999) together with n_count. -/
def rank (idxs : List Int) (_pits : List Bool) : (Nat → Int) × Nat :=
  (List.range idxs.length).foldl (processOne idxs) ((fun _ => -9999), 0)

/-- core.rs upstream_count: per-cell upstream fan-in as a wrapping i8
counter; contributions come from cells whose downstream index is another
in-range cell (and which pass the mask when one is given).  Both source
branches (with and without mask) visit idx0 = 0..size in order. -/
def upstream_count (idxs : List Nat) (mask : Option (Nat → Bool)) : Nat → Int :=
  match mask with
  | some m =>
    (List.range idxs.length).foldl
      (fun nup idx0 =>
        let idxDs := idxs.getD idx0 0
        if idxDs ≠ idx0 ∧ idxDs < idxs.length ∧ m idx0 = true then
          Function.update nup idxDs (i8wrap (nup idxDs + 1))
        else nup)
      (fun _ => 0)
  | none =>
    (List.range idxs.length).foldl
      (fun nup idx0 =>
        let idxDs := idxs.getD idx0 0
        if idxDs ≠ idx0 ∧ idxDs < idxs.length then
          Function.update nup idxDs (i8wrap (nup idxDs + 1))
        else nup)
      (fun _ => 0)

/-- core.rs upstream_matrix: the (n, d) upstream-adjacency table (d = the
maximum i8 fan-in cast to usize, table entries MV = -1) together with its
width; when d = 0 the table is the (n, 1) all-MV table.  The table is
modelled as a function from (row, column) pairs; the per-target insertion
counter of the source is the second fold component. -/
def upstream_matrix (idxs : List Nat) : (Nat × Nat → Int) × Nat :=
  let n := idxs.length
  let nup := upstream_count idxs none
  let d := asUsize ((((List.range n).map nup).max?).getD 0)
  if d = 0 then ((fun _ => -1), 1)
  else
    (((List.range n).foldl
      (fun (st : (Nat × Nat → Int) × (Nat → Nat)) idx0 =>
        let idxDs := idxs.getD idx0 0
        if idxDs ≠ idx0 ∧ idxDs < n then
          let i := st.2 idxDs
          if i < d then
            (Function.update st.1 (idxDs, i) (toI64 idx0),
             Function.update st.2 idxDs (i + 1))
          else st
        else st)
      ((fun _ => -1), (fun _ => 0))).1, d)

/-- core.rs pit_indices: indices of self-loop cells in scan order. -/
def pit_indices (idxs : List Nat) : List Nat :=
  (List.range idxs.length).filter (fun idx => idxs.getD idx 0 == idx)

/-- The inner row-append loop of core.rs idxs_seq: scan the adjacency row
of idx0 left to right, stop at the first MV entry, and append each index
(cast back to usize) to the sequence while it is shorter than size. -/
def pushRowAux (mat : Nat × Nat → Int) (idx0 size : Nat) :
    Nat → Nat → List Nat → List Nat
  | _, 0, seq => seq
  | k, rem + 1, seq =>
    let v := mat (idx0, k)
    if v = -1 then seq
    else pushRowAux mat idx0 size (k + 1) rem
      (if seq.length < size then seq ++ [asUsize v] else seq)

/-- The main cursor loop of core.rs idxs_seq: while the cursor is below
both the filled length and size, append the upstream row of the cell at
the cursor and advance.  The cursor grows by one per iteration and the
loop guard demands cursor < size, so fuel = size makes the recursion
structural without changing the result. -/
def seqLoop (mat : Nat × Nat → Int) (width size : Nat) :
    Nat → List Nat → Nat → List Nat
  | 0, seq, _ => seq
  | fuel + 1, seq, i =>
    if i < seq.length ∧ i < size then
      seqLoop mat width size fuel (pushRowAux mat (seq.getD i 0) size 0 width seq) (i + 1)
    else seq

/-- The pit-seeding loop of core.rs idxs_seq. -/
def initSeq (pits : List Nat) (size : Nat) : List Nat :=
  pits.foldl (fun s x => if s.length < size then s ++ [x] else s) []

/-- core.rs idxs_seq: downstream-to-upstream visiting order, seeded with
the pit list and expanded breadth-first over the upstream matrix. -/
def idxs_seq (idxs : List Nat) (idxs_pit : List Nat) : List Nat :=
  let n := idxs.length
  let mw := upstream_matrix idxs
  seqLoop mw.1 mw.2 n n (initSeq idxs_pit n) 0

/-- The downstream move the rank loop makes from a cell: the i32 entry at
the cell, cast with the as-usize semantics. -/
def dstep (idxs : List Int) (c : Nat) : Nat := asUsize (idxs.getD c 0)

/-- The downstream chain from a cell reaches a pit: either the cell
itself passes the pit test of the rank loop (its entry equals its own
index cast to i32), or its downstream cell does so after finitely many
steps.  Both constructors require the cell to be a real cell (index below
the array length), so a chain that leaves the index range never reaches
a pit. -/
inductive Reaches (idxs : List Int) : Nat → Prop where
  | pit (c : Nat) (hc : c < idxs.length) (hp : idxs.getD c 0 = toI32 c) :
      Reaches idxs c
  | step (c : Nat) (hc : c < idxs.length) (h : Reaches idxs (dstep idxs c)) :
      Reaches idxs c

/-- Reachability of a pit over a usize downstream array (the form
idxs_seq consumes); related to Reaches on the i32 cast by
reachesN_iff_reaches below. -/
inductive ReachesN (idxs : List Nat) : Nat → Prop where
  | pit (c : Nat) (hc : c < idxs.length) (hp : idxs.getD c 0 = c) :
      ReachesN idxs c
  | step (c : Nat) (hc : c < idxs.length) (h : ReachesN idxs (idxs.getD c 0)) :
      ReachesN idxs c

/-- The pit test the rank loop applies at a cell: its entry equals its
own index cast to i32. -/
def isPit (idxs : List Int) (c : Nat) : Prop := idxs.getD c 0 = toI32 c

/-- The correctness invariant of the rank computation, holding for the
initial all-(-9999) array and preserved by every path resolution:
resolved values are anchored at pits (rank 0) and increase by one along
the upstream direction, resolved cells reach a pit, and invalidated
(-1) cells do not. -/
structure RankInv (idxs : List Int) (ranks : Nat → Int) : Prop where
  vals : ∀ c, ranks c = -9999 ∨ ranks c = -1 ∨ 0 ≤ ranks c
  pits : ∀ c, c < idxs.length → isPit idxs c → ranks c = -9999 ∨ ranks c = 0
  succs : ∀ c, c < idxs.length → 0 ≤ ranks c → ¬isPit idxs c →
    dstep idxs c < idxs.length ∧ ranks (dstep idxs c) = ranks c - 1 ∧
      0 ≤ ranks (dstep idxs c)
  reach : ∀ c, c < idxs.length → 0 ≤ ranks c → Reaches idxs c
  noreach : ∀ c, c < idxs.length → ranks c = -1 → ¬Reaches idxs c

/-- The resolution anchor carried through the backward assignment loop:
either the head of the remaining path is a pit and the incoming rnk is
-1, or the head's downstream cell is already resolved at rank rnk. -/
def AssignAnchor (idxs : List Int) (rnk : Int) (ranks : Nat → Int) :
    List Nat → Prop
  | [] => True
  | a :: _ => (isPit idxs a ∧ rnk = -1) ∨
      (¬isPit idxs a ∧ 0 ≤ rnk ∧ dstep idxs a < idxs.length ∧
       ranks (dstep idxs a) = rnk ∧ Reaches idxs (dstep idxs a))

/-- The value of an i8 counter after k wrapping increments from x. -/
def i8chain (x : Int) : Nat → Int
  | 0 => x
  | k + 1 => i8wrap (i8chain x k + 1)

/-- The direct upstream contributors of a target cell in scan order: the
cells whose downstream index is the target and differ from it.  This is
the insertion order of both upstream_count and upstream_matrix. -/
def contributors (idxs : List Nat) (t : Nat) : List Nat :=
  (List.range idxs.length).filter (fun i => idxs.getD i 0 == t && !(i == t))

/-- The contribution test both counting loops of core.rs apply with a
target t in view: the scanned cell's downstream index equals t, differs
from the cell itself, and is in range.  For an in-range target the last
conjunct is implied and the filtered scan coincides with contributors. -/
def contribP (idxs : List Nat) (t i : Nat) : Bool :=
  idxs.getD i 0 == t && !(i == t) && decide (idxs.getD i 0 < idxs.length)

/-- One step of the upstream_matrix fill loop at table width d: a cell
with a distinct in-range downstream index is written into the next free
column of its target's row when one is free, advancing the per-target
counter; otherwise the state is unchanged. -/
def matStep (idxs : List Nat) (d : Nat)
    (st : (Nat × Nat → Int) × (Nat → Nat)) (idx0 : Nat) :
    (Nat × Nat → Int) × (Nat → Nat) :=
  if idxs.getD idx0 0 ≠ idx0 ∧ idxs.getD idx0 0 < idxs.length then
    if st.2 (idxs.getD idx0 0) < d then
      (Function.update st.1 (idxs.getD idx0 0, st.2 (idxs.getD idx0 0)) (toI64 idx0),
       Function.update st.2 (idxs.getD idx0 0) (st.2 (idxs.getD idx0 0) + 1))
    else st
  else st

/-- The invariant of the idxs_seq cursor loop, for a filled sequence seq
and cursor position i: the cursor has not passed the filled length, the
sequence has no duplicates and only in-range cells, every non-pit entry
is preceded by its downstream cell, every entry reaches a pit, every
entry is a pit or the downstream target of an already processed
position, every pit is present, and the contributors of every processed
position are present. -/
structure SeqInv (idxs : List Nat) (seq : List Nat) (i : Nat) : Prop where
  hi : i ≤ seq.length
  nodup : seq.Nodup
  mem_lt : ∀ x ∈ seq, x < idxs.length
  ds_earlier : ∀ j, j < seq.length →
    idxs.getD (seq.getD j 0) 0 ≠ seq.getD j 0 →
    ∃ p, p < j ∧ seq.getD p 0 = idxs.getD (seq.getD j 0) 0
  reach : ∀ x ∈ seq, ReachesN idxs x
  dsin : ∀ x ∈ seq, idxs.getD x 0 = x ∨
    ∃ p, p < i ∧ seq.getD p 0 = idxs.getD x 0
  pits_in : ∀ x, x < idxs.length → idxs.getD x 0 = x → x ∈ seq
  closed : ∀ p, p < i → ∀ y ∈ contributors idxs (seq.getD p 0), y ∈ seq

/-- processOne instrumented for termination: identical to processOne but
propagating the fuel-exhaustion marker of walk instead of swallowing it.
rank_terminates below proves the marker never occurs, which is the
termination statement for the source loop (whose only potential source
of divergence is the inner walk). -/
def processOneOpt (idxs : List Int) (st : (Nat → Int) × Nat) (idx0 : Nat) :
    Option ((Nat → Int) × Nat) :=
  let ranks := st.1
  let ds0 := idxs.getD idx0 0
  if ds0 = -1 ∨ ranks idx0 ≠ -9999 then some st
  else
    match walk idxs ranks [idx0] idx0 ds0 (idxs.length + 1) with
    | none => none
    | some (rnk, path) =>
      if rnk = -2 then some (invalidate path ranks, st.2)
      else some (assignRanks path rnk ranks st.2)

/-- rank instrumented for termination (see processOneOpt). -/
def rankOpt (idxs : List Int) : Option ((Nat → Int) × Nat) :=
  (List.range idxs.length).foldlM (processOneOpt idxs) ((fun _ => -9999), 0)

/-! ## flwdir.rs: the FlwdirRaster facade -/

/-- flwdir.rs FlwdirRaster.  The boolean valid mask and the i8 upstream
count array are modelled as functions on cell indices (false resp. 0
outside 0..size, their initialisation values). -/
structure FlwdirRaster where
  idxs_ds : List Nat
  shape : Nat × Nat
  valid_mask : Nat → Bool
  pit_indices : List Nat
  upstream_counts : Nat → Int
  rank_cache : Option (Nat → Int)

/-- flwdir.rs FlwdirRaster::from_array: build the downstream array, the
valid mask (downstream differs from self, or the original code is the
pit code 0 — the cell read d8[[row, col]] is at flat offset
row*ncols + col), the pit list and the masked upstream counts. -/
def FlwdirRaster.from_array (nrows ncols : Nat) (d8 : List Nat) : FlwdirRaster :=
  let size := nrows * ncols
  let idxs := d8_from_array nrows ncols d8
  let vmask : Nat → Bool := fun idx =>
    if idx < size then
      decide (idxs.getD idx 0 ≠ idx) ||
        (d8.getD ((idx / ncols) * ncols + idx % ncols) 0 == 0)
    else false
  { idxs_ds := idxs
    shape := (nrows, ncols)
    valid_mask := vmask
    pit_indices := Pyflwdir.pit_indices idxs
    upstream_counts := upstream_count idxs (some vmask)
    rank_cache := none }

/-- flwdir.rs FlwdirRaster::get_idxs_ds_i32: the downstream array cast
cell-wise to i32. -/
def FlwdirRaster.get_idxs_ds_i32 (s : FlwdirRaster) : List Int :=
  s.idxs_ds.map toI32

/-- flwdir.rs FlwdirRaster::accuflux: initialise each cell to its weight
(default 1), group cells by their own upstream count and, scanning the
count buckets from the maximum count down to 0 (cells inside a bucket in
index order, the insertion order of the source), push each non-self-loop
cell's value onto its downstream cell.  The f64 flux values are modelled
as integers: with the weights used in the claims every value is a small
nonnegative integer, on which f64 addition is exact. -/
def FlwdirRaster.accuflux (s : FlwdirRaster) (weights : Option (List Int)) :
    Nat → Int :=
  let size := s.idxs_ds.length
  let flux0 : Nat → Int :=
    match weights with
    | some w => fun i => if i < size then w.getD i 0 else 1
    | none => fun _ => 1
  let maxCount : Int :=
    (List.range size).foldl (fun a idx => max a (s.upstream_counts idx)) 0
  (((List.range (maxCount.toNat + 1)).reverse).map (fun k => (k : Int))).foldl
    (fun flux count =>
      (List.range size).foldl
        (fun fl idx =>
          if s.upstream_counts idx = count then
            let idxDs := s.idxs_ds.getD idx 0
            if idxDs ≠ idx ∧ idxDs < size then
              Function.update fl idxDs (fl idxDs + fl idx)
            else fl
          else fl)
        flux)
    flux0

/-- flwdir.rs FlwdirRaster::rank: compute the core rank on the i32 cast
of the downstream array (with an all-false pits argument) on the first
call and cache it; later calls return the cache.  The &mut self method
is modelled by returning the updated receiver alongside the result. -/
def FlwdirRaster.rank (s : FlwdirRaster) : FlwdirRaster × (Nat → Int) :=
  match s.rank_cache with
  | some r => (s, r)
  | none =>
    let r := (Pyflwdir.rank s.get_idxs_ds_i32
      (List.replicate s.idxs_ds.length false)).1
    ({ s with rank_cache := some r }, r)

/-! ## General helper lemmas -/

theorem getD_range_map {α : Type} (f : Nat → α) (k v : Nat) (d : α) (h : v < k) :
    ((List.range k).map f).getD v d = f v := by
  rw [List.getD_eq_getElem?_getD, List.getElem?_map, List.getElem?_range h]
  rfl

theorem toI32_small (x : Nat) (h : x < 2147483648) : toI32 x = x := by
  unfold toI32
  have h1 : (x : Int) % 4294967296 = x := Int.emod_eq_of_lt (by omega) (by omega)
  rw [h1]
  simp only [if_pos (by omega : (x : Int) < 2147483648)]

theorem toI64_small (x : Nat) (h : x < 9223372036854775808) : toI64 x = x := by
  unfold toI64
  have h1 : (x : Int) % 18446744073709551616 = x :=
    Int.emod_eq_of_lt (by omega) (by omega)
  rw [h1]
  simp only [if_pos (by omega : (x : Int) < 9223372036854775808)]

theorem asUsize_ofNat (x : Nat) (h : x < 18446744073709551616) :
    asUsize (x : Int) = x := by
  unfold asUsize
  rw [Int.emod_eq_of_lt (by omega) (by omega)]
  exact Int.toNat_natCast x

theorem asUsize_neg_one : asUsize (-1) = 18446744073709551615 := by decide

theorem i8wrap_id (x : Int) (h1 : -128 ≤ x) (h2 : x ≤ 127) : i8wrap x = x := by
  unfold i8wrap
  omega

theorem DR_LOOKUP_getD (v : Nat) (h : v < 256) : DR_LOOKUP.getD v 0 = DRval v :=
  getD_range_map DRval 256 v 0 h

theorem DC_LOOKUP_getD (v : Nat) (h : v < 256) : DC_LOOKUP.getD v 0 = DCval v :=
  getD_range_map DCval 256 v 0 h

theorem VALID_LOOKUP_getD (v : Nat) (h : v < 256) :
    VALID_LOOKUP.getD v false = VALIDval v :=
  getD_range_map VALIDval 256 v false h

theorem DR_LOOKUP_length : DR_LOOKUP.length = 256 := by
  simp [DR_LOOKUP]

theorem DC_LOOKUP_length : DC_LOOKUP.length = 256 := by
  simp [DC_LOOKUP]

theorem VALIDval_cases (v : Nat) (h : VALIDval v = true) :
    v = 64 ∨ v = 128 ∨ v = 1 ∨ v = 2 ∨ v = 4 ∨ v = 8 ∨ v = 16 ∨ v = 32 ∨ v = 0 := by
  simp only [VALIDval, Bool.or_eq_true, decide_eq_true_eq] at h
  tauto

/-! ## C10: totality of the direction decoder -/

/-- C10: drdc is total over all byte values: for every byte that is not
one of the 8 compass codes — including the pit code 0, the no-data code
255 and every other byte — it returns the offset (0, 0), and its two
table lookups are within the 256-entry tables. -/
theorem drdc_total : ∀ b : Nat, b < 256 →
    (b ≠ 1 ∧ b ≠ 2 ∧ b ≠ 4 ∧ b ≠ 8 ∧ b ≠ 16 ∧ b ≠ 32 ∧ b ≠ 64 ∧ b ≠ 128) →
    drdc b = (0, 0) ∧ b < DR_LOOKUP.length ∧ b < DC_LOOKUP.length := by
  intro b hb hc
  refine ⟨?_, by rw [DR_LOOKUP_length]; omega, by rw [DC_LOOKUP_length]; omega⟩
  unfold drdc
  rw [DR_LOOKUP_getD b hb, DC_LOOKUP_getD b hb]
  obtain ⟨h1, h2, h4, h8, h16, h32, h64, h128⟩ := hc
  simp [DRval, DCval, h1, h2, h4, h8, h16, h32, h64, h128]

/-- Witness for C10 at the no-data byte 255 and at the pit byte 0. -/
theorem drdc_total_witness :
    (drdc 255 = (0, 0) ∧ 255 < DR_LOOKUP.length ∧ 255 < DC_LOOKUP.length) ∧
    (drdc 0 = (0, 0) ∧ 0 < DR_LOOKUP.length ∧ 0 < DC_LOOKUP.length) :=
  ⟨drdc_total 255 (by decide) (by decide), drdc_total 0 (by decide) (by decide)⟩

/-! ## C1: accuflux bucket order -/

/-- C1 (failing input): on the 1x4 D8 grid [E, E, E, PIT] — the chain
0 -> 1 -> 2 -> 3 with pit 3 — accuflux with no weights returns 3 at the
pit, although the full upstream subtree of the pit has 4 cells.  The
claim (and section 8 of the spec) demands 4: the bucket-by-upstream-count
order pushes cell 1 downstream before the contribution of cell 0 has
landed in it, so it is not a topological order. -/
theorem accuflux_bucket_order_bug :
    (FlwdirRaster.from_array 1 4 [1, 1, 1, 0]).idxs_ds = [1, 2, 3, 3] ∧
    (let f := (FlwdirRaster.from_array 1 4 [1, 1, 1, 0]).accuflux none
     (f 0, f 1, f 2, f 3)) = (1, 2, 2, 3) ∧
    ((FlwdirRaster.from_array 1 4 [1, 1, 1, 0]).accuflux none) 3 ≠ 4 := by
  refine ⟨by decide, by decide, by decide⟩

/-! ## C2: the D8 round trip -/

/-- C2 (counterexample): the 1x2 grid [PIT, E] contains only valid codes
and exactly one pit, but the east-flowing cell 1 targets a column outside
the grid, is collapsed to a self-loop by d8_from_array, and decodes back
to PIT: the round trip returns [0, 0], not [0, 1]. -/
theorem d8_roundtrip_cx :
    (∀ v ∈ [0, 1], VALIDval v = true) ∧
    ([0, 1].filter (fun v => v == 0)).length = 1 ∧
    d8_to_array 1 2 (d8_from_array 1 2 [0, 1]) = [0, 0] ∧
    d8_to_array 1 2 (d8_from_array 1 2 [0, 1]) ≠ [0, 1] := by
  refine ⟨by decide, by decide, by decide, by decide⟩

theorem div_mod_pack (r c ncols : Nat) (hc : c < ncols) :
    (r * ncols + c) / ncols = r ∧ (r * ncols + c) % ncols = c := by
  constructor
  · rw [mul_comm, Nat.mul_add_div (by omega), Nat.div_eq_of_lt hc, add_zero]
  · rw [mul_comm, Nat.mul_add_mod, Nat.mod_eq_of_lt hc]

theorem rowcol_flat (ncols idx : Nat) : idx / ncols * ncols + idx % ncols = idx := by
  rw [mul_comm]
  exact Nat.div_add_mod idx ncols

theorem d8_from_array_length (nrows ncols : Nat) (d8 : List Nat) :
    (d8_from_array nrows ncols d8).length = nrows * ncols := by
  simp [d8_from_array]

theorem d8_to_array_length (nrows ncols : Nat) (idxs : List Nat) :
    (d8_to_array nrows ncols idxs).length = nrows * ncols := by
  simp [d8_to_array]

theorem d8_from_array_getD (nrows ncols : Nat) (d8 : List Nat) (idx : Nat)
    (h : idx < nrows * ncols) :
    (d8_from_array nrows ncols d8).getD idx 0 = d8_cell nrows ncols d8 idx :=
  getD_range_map _ _ _ _ h

theorem d8_cell_pit (nrows ncols : Nat) (d8 : List Nat) (idx : Nat)
    (hv : d8.getD idx 0 = 0) : d8_cell nrows ncols d8 idx = idx := by
  unfold d8_cell
  simp only []
  rw [rowcol_flat, hv]
  simp

theorem d8_cell_compass (nrows ncols : Nat) (d8 : List Nat) (idx : Nat)
    (v : Nat) (hv : d8.getD idx 0 = v) (hvne : v ≠ 0) (hv256 : v < 256)
    (hvalid : VALIDval v = true)
    (h1 : 0 ≤ ((idx / ncols : Nat) : Int) + DRval v)
    (h2 : ((idx / ncols : Nat) : Int) + DRval v < (nrows : Int))
    (h3 : 0 ≤ ((idx % ncols : Nat) : Int) + DCval v)
    (h4 : ((idx % ncols : Nat) : Int) + DCval v < (ncols : Int)) :
    d8_cell nrows ncols d8 idx =
      (((idx / ncols : Nat) : Int) + DRval v).toNat * ncols +
        (((idx % ncols : Nat) : Int) + DCval v).toNat := by
  unfold d8_cell
  simp only []
  rw [rowcol_flat, hv]
  rw [if_neg hvne, VALID_LOOKUP_getD v hv256, hvalid, if_pos rfl]
  rw [DR_LOOKUP_getD v hv256, DC_LOOKUP_getD v hv256]
  rw [if_pos ⟨h1, h2, h3, h4⟩]

theorem roundtrip_cell_compass (nrows ncols : Nat) (d8 : List Nat) (idx : Nat)
    (hidx : idx < nrows * ncols)
    (v : Nat) (hv : d8.getD idx 0 = v) (hvne : v ≠ 0) (hv256 : v < 256)
    (hvalid : VALIDval v = true)
    (hoff : DRval v ≠ 0 ∨ DCval v ≠ 0)
    (hfind : directionsD8.find? (fun t => t.2.1 == DRval v && t.2.2 == DCval v)
      = some (v, DRval v, DCval v))
    (h1 : 0 ≤ ((idx / ncols : Nat) : Int) + DRval v)
    (h2 : ((idx / ncols : Nat) : Int) + DRval v < (nrows : Int))
    (h3 : 0 ≤ ((idx % ncols : Nat) : Int) + DCval v)
    (h4 : ((idx % ncols : Nat) : Int) + DCval v < (ncols : Int)) :
    d8_to_cell ncols (nrows * ncols) (d8_from_array nrows ncols d8) idx = v := by
  have hc := d8_cell_compass nrows ncols d8 idx v hv hvne hv256 hvalid h1 h2 h3 h4
  set r2 := (((idx / ncols : Nat) : Int) + DRval v).toNat with hr2
  set c2 := (((idx % ncols : Nat) : Int) + DCval v).toNat with hc2
  have hclt : c2 < ncols := by omega
  have hrlt : r2 < nrows := by omega
  have ht : r2 * ncols + c2 < nrows * ncols := by
    have h5 : r2 * ncols + c2 < (r2 + 1) * ncols := by
      have : (r2 + 1) * ncols = r2 * ncols + ncols := by ring
      omega
    have h6 : (r2 + 1) * ncols ≤ nrows * ncols := Nat.mul_le_mul_right _ (by omega)
    omega
  have hdiv : (r2 * ncols + c2) / ncols = r2 := (div_mod_pack r2 c2 ncols hclt).1
  have hmod : (r2 * ncols + c2) % ncols = c2 := (div_mod_pack r2 c2 ncols hclt).2
  have hne : r2 * ncols + c2 ≠ idx := by
    intro he
    have e1 : r2 = idx / ncols := by rw [← hdiv, he]
    have e2 : c2 = idx % ncols := by rw [← hmod, he]
    rcases hoff with h | h <;> omega
  unfold d8_to_cell
  simp only []
  rw [d8_from_array_getD nrows ncols d8 idx hidx, hc]
  rw [if_neg hne, if_pos ht, hdiv, hmod]
  have hdr : ((r2 : Nat) : Int) - ((idx / ncols : Nat) : Int) = DRval v := by omega
  have hdc : ((c2 : Nat) : Int) - ((idx % ncols : Nat) : Int) = DCval v := by omega
  rw [hdr, hdc, hfind]

theorem d8_to_array_getElem (nrows ncols : Nat) (idxs : List Nat) (i : Nat)
    (h : i < (d8_to_array nrows ncols idxs).length) :
    (d8_to_array nrows ncols idxs)[i] = d8_to_cell ncols (nrows * ncols) idxs i := by
  simp [d8_to_array]

/-- C2 (amended): for every grid that contains only valid codes (the 8
compass codes and PIT) and exactly one PIT code, and in which the target
of every compass-coded cell lies inside the grid, decoding the
downstream-index array back reproduces the original grid exactly.  The
in-bounds condition is forced by the counterexample d8_roundtrip_cx: an
edge cell whose compass target leaves the grid is collapsed to a
self-loop and decodes to PIT. -/
theorem d8_roundtrip (nrows ncols : Nat) (d8 : List Nat)
    (hlen : d8.length = nrows * ncols)
    (hvalid : ∀ v ∈ d8, VALIDval v = true)
    (hpit : (d8.filter (fun v => v == 0)).length = 1)
    (hin : ∀ idx, idx < nrows * ncols → d8.getD idx 0 ≠ 0 →
      0 ≤ ((idx / ncols : Nat) : Int) + DRval (d8.getD idx 0) ∧
      ((idx / ncols : Nat) : Int) + DRval (d8.getD idx 0) < (nrows : Int) ∧
      0 ≤ ((idx % ncols : Nat) : Int) + DCval (d8.getD idx 0) ∧
      ((idx % ncols : Nat) : Int) + DCval (d8.getD idx 0) < (ncols : Int)) :
    d8_to_array nrows ncols (d8_from_array nrows ncols d8) = d8 := by
  apply List.ext_getElem
  · rw [d8_to_array_length, hlen]
  intro idx h1 h2
  have hidx : idx < nrows * ncols := by rw [hlen] at h2; exact h2
  rw [d8_to_array_getElem]
  have hgd : d8.getD idx 0 = d8[idx] := List.getD_eq_getElem d8 0 h2
  have hval : VALIDval d8[idx] = true := hvalid _ (List.getElem_mem h2)
  rcases VALIDval_cases _ hval with h | h | h | h | h | h | h | h | h <;>
    rw [h] at hgd <;> rw [h] <;>
    first
    | (unfold d8_to_cell
       simp only []
       rw [d8_from_array_getD nrows ncols d8 idx hidx,
         d8_cell_pit nrows ncols d8 idx hgd]
       simp)
    | (have hne0 : d8.getD idx 0 ≠ 0 := by rw [hgd]; decide
       obtain ⟨b1, b2, b3, b4⟩ := hin idx hidx hne0
       rw [hgd] at b1 b2 b3 b4
       exact roundtrip_cell_compass nrows ncols d8 idx hidx _ hgd (by decide)
         (by decide) (by decide) (by decide) (by decide) b1 b2 b3 b4)

/-- Witness for C2 at the 2x2 spec scenario grid [[SE, S], [E, PIT]]:
only valid codes, one pit, all compass targets inside the grid. -/
theorem d8_roundtrip_witness :
    d8_to_array 2 2 (d8_from_array 2 2 [2, 4, 1, 0]) = [2, 4, 1, 0] :=
  d8_roundtrip 2 2 [2, 4, 1, 0] (by decide) (by decide) (by decide) (by decide)

/-! ## C6: the validity mask -/

theorem compass_target_ne (nrows ncols idx : Nat) (v : Nat)
    (hoff : DRval v ≠ 0 ∨ DCval v ≠ 0)
    (h1 : 0 ≤ ((idx / ncols : Nat) : Int) + DRval v)
    (h2 : ((idx / ncols : Nat) : Int) + DRval v < (nrows : Int))
    (h3 : 0 ≤ ((idx % ncols : Nat) : Int) + DCval v)
    (h4 : ((idx % ncols : Nat) : Int) + DCval v < (ncols : Int)) :
    (((idx / ncols : Nat) : Int) + DRval v).toNat * ncols +
      (((idx % ncols : Nat) : Int) + DCval v).toNat ≠ idx := by
  set r2 := (((idx / ncols : Nat) : Int) + DRval v).toNat with hr2
  set c2 := (((idx % ncols : Nat) : Int) + DCval v).toNat with hc2
  have hclt : c2 < ncols := by omega
  have hdiv : (r2 * ncols + c2) / ncols = r2 := (div_mod_pack r2 c2 ncols hclt).1
  have hmod : (r2 * ncols + c2) % ncols = c2 := (div_mod_pack r2 c2 ncols hclt).2
  intro he
  have e1 : r2 = idx / ncols := by rw [← hdiv, he]
  have e2 : c2 = idx % ncols := by rw [← hmod, he]
  rcases hoff with h | h <;> omega

theorem d8_cell_invalid (nrows ncols : Nat) (d8 : List Nat) (idx : Nat)
    (hv : VALID_LOOKUP.getD (d8.getD idx 0) false ≠ true) :
    d8_cell nrows ncols d8 idx = idx := by
  unfold d8_cell
  simp only []
  rw [rowcol_flat]
  by_cases h0 : d8.getD idx 0 = 0
  · exfalso
    apply hv
    rw [h0, VALID_LOOKUP_getD 0 (by omega)]
    decide
  · rw [if_neg h0, if_neg hv]

theorem d8_cell_oob (nrows ncols : Nat) (d8 : List Nat) (idx : Nat)
    (hvne : d8.getD idx 0 ≠ 0) (hv256 : d8.getD idx 0 < 256)
    (hb : ¬(0 ≤ ((idx / ncols : Nat) : Int) + DRval (d8.getD idx 0) ∧
      ((idx / ncols : Nat) : Int) + DRval (d8.getD idx 0) < (nrows : Int) ∧
      0 ≤ ((idx % ncols : Nat) : Int) + DCval (d8.getD idx 0) ∧
      ((idx % ncols : Nat) : Int) + DCval (d8.getD idx 0) < (ncols : Int))) :
    d8_cell nrows ncols d8 idx = idx := by
  unfold d8_cell
  simp only []
  rw [rowcol_flat]
  rw [if_neg hvne]
  by_cases hv : VALID_LOOKUP.getD (d8.getD idx 0) false = true
  · rw [if_pos hv, DR_LOOKUP_getD _ hv256, DC_LOOKUP_getD _ hv256, if_neg hb]
  · rw [if_neg hv]

theorem from_array_valid_mask_eq (nrows ncols : Nat) (d8 : List Nat) (idx : Nat)
    (hidx : idx < nrows * ncols) :
    (FlwdirRaster.from_array nrows ncols d8).valid_mask idx =
      (decide ((d8_from_array nrows ncols d8).getD idx 0 ≠ idx) ||
        (d8.getD idx 0 == 0)) := by
  show (if idx < nrows * ncols then _ else false) = _
  rw [if_pos hidx, rowcol_flat]

theorem compass_off (v : Nat) (hval : VALIDval v = true) (h0 : v ≠ 0) :
    DRval v ≠ 0 ∨ DCval v ≠ 0 := by
  rcases VALIDval_cases v hval with h | h | h | h | h | h | h | h | h <;>
    subst h <;> first | (left; decide) | (right; decide) | (exact absurd rfl h0)

/-- C6: for a FlwdirRaster built from a D8 grid, for every cell of the
grid the validity mask is true exactly when the cell's code is the PIT
code 0 or a compass code whose target coordinates lie inside the grid;
no-data and other invalid byte values and compass codes with
out-of-bounds targets give a false mask, and every false-mask cell has
downstream index equal to itself. -/
theorem valid_mask_spec (nrows ncols : Nat) (d8 : List Nat) (idx : Nat)
    (hlen : d8.length = nrows * ncols)
    (hb : ∀ v ∈ d8, v < 256)
    (hidx : idx < nrows * ncols) :
    ((FlwdirRaster.from_array nrows ncols d8).valid_mask idx = true ↔
      (d8.getD idx 0 = 0 ∨
        (d8.getD idx 0 ≠ 0 ∧ VALIDval (d8.getD idx 0) = true ∧
          0 ≤ ((idx / ncols : Nat) : Int) + DRval (d8.getD idx 0) ∧
          ((idx / ncols : Nat) : Int) + DRval (d8.getD idx 0) < (nrows : Int) ∧
          0 ≤ ((idx % ncols : Nat) : Int) + DCval (d8.getD idx 0) ∧
          ((idx % ncols : Nat) : Int) + DCval (d8.getD idx 0) < (ncols : Int)))) ∧
    ((FlwdirRaster.from_array nrows ncols d8).valid_mask idx = false →
      (FlwdirRaster.from_array nrows ncols d8).idxs_ds.getD idx 0 = idx) := by
  have h2 : idx < d8.length := by omega
  have hv256 : d8.getD idx 0 < 256 := by
    rw [List.getD_eq_getElem d8 0 h2]
    exact hb _ (List.getElem_mem h2)
  have hmask := from_array_valid_mask_eq nrows ncols d8 idx hidx
  have hds : (FlwdirRaster.from_array nrows ncols d8).idxs_ds
      = d8_from_array nrows ncols d8 := rfl
  constructor
  · rw [hmask, d8_from_array_getD nrows ncols d8 idx hidx]
    simp only [Bool.or_eq_true, decide_eq_true_eq, beq_iff_eq]
    by_cases h0 : d8.getD idx 0 = 0
    · rw [d8_cell_pit nrows ncols d8 idx h0]
      tauto
    · by_cases hval : VALIDval (d8.getD idx 0) = true
      · by_cases hbnd : 0 ≤ ((idx / ncols : Nat) : Int) + DRval (d8.getD idx 0) ∧
          ((idx / ncols : Nat) : Int) + DRval (d8.getD idx 0) < (nrows : Int) ∧
          0 ≤ ((idx % ncols : Nat) : Int) + DCval (d8.getD idx 0) ∧
          ((idx % ncols : Nat) : Int) + DCval (d8.getD idx 0) < (ncols : Int)
        · obtain ⟨b1, b2, b3, b4⟩ := hbnd
          rw [d8_cell_compass nrows ncols d8 idx _ rfl h0 hv256 hval b1 b2 b3 b4]
          have hne := compass_target_ne nrows ncols idx _
            (compass_off _ hval h0) b1 b2 b3 b4
          tauto
        · rw [d8_cell_oob nrows ncols d8 idx h0 hv256 hbnd]
          tauto
      · have hvl : VALID_LOOKUP.getD (d8.getD idx 0) false ≠ true := by
          rw [VALID_LOOKUP_getD _ hv256]
          exact hval
        rw [d8_cell_invalid nrows ncols d8 idx hvl]
        tauto
  · intro hf
    rw [hmask] at hf
    rw [hds, d8_from_array_getD nrows ncols d8 idx hidx]
    rw [d8_from_array_getD nrows ncols d8 idx hidx] at hf
    simp only [Bool.or_eq_false_iff, decide_eq_false_iff_not, not_not] at hf
    exact hf.1

/-- Witness for C6 at the 1x2 grid [PIT, E], cell 1: its east target is
outside the grid. -/
theorem valid_mask_spec_witness :
    (((FlwdirRaster.from_array 1 2 [0, 1]).valid_mask 1 = true ↔
      (([0, 1] : List Nat).getD 1 0 = 0 ∨
        (([0, 1] : List Nat).getD 1 0 ≠ 0 ∧
          VALIDval (([0, 1] : List Nat).getD 1 0) = true ∧
          0 ≤ ((1 / 2 : Nat) : Int) + DRval (([0, 1] : List Nat).getD 1 0) ∧
          ((1 / 2 : Nat) : Int) + DRval (([0, 1] : List Nat).getD 1 0) < (1 : Int) ∧
          0 ≤ ((1 % 2 : Nat) : Int) + DCval (([0, 1] : List Nat).getD 1 0) ∧
          ((1 % 2 : Nat) : Int) + DCval (([0, 1] : List Nat).getD 1 0) < (2 : Int)))) ∧
    ((FlwdirRaster.from_array 1 2 [0, 1]).valid_mask 1 = false →
      (FlwdirRaster.from_array 1 2 [0, 1]).idxs_ds.getD 1 0 = 1)) :=
  valid_mask_spec 1 2 ([0, 1] : List Nat) 1 (by decide) (by decide) (by decide)


/-! ## The rank computation: invariant development, C3, C4, C9 -/

theorem toI32_cell (n c : Nat) (hn : n ≤ 2147483648) (hc : c < n) :
    toI32 c = c :=
  toI32_small c (by omega)

theorem asUsize_cell (n c : Nat) (hn : n ≤ 2147483648) (hc : c < n) :
    asUsize (toI32 c) = c := by
  rw [toI32_cell n c hn hc]
  exact asUsize_ofNat c (by omega)

theorem reaches_lt {idxs : List Int} {c : Nat} (h : Reaches idxs c) :
    c < idxs.length := by
  cases h with
  | pit c hc _ => exact hc
  | step c hc _ => exact hc

theorem reaches_inv {idxs : List Int} {c : Nat} (h : Reaches idxs c) :
    isPit idxs c ∨ Reaches idxs (dstep idxs c) := by
  cases h with
  | pit c hc hp => exact Or.inl hp
  | step c hc h => exact Or.inr h

theorem not_reaches_of_step {idxs : List Int} {c : Nat}
    (hnp : ¬isPit idxs c) (h : ¬Reaches idxs (dstep idxs c)) :
    ¬Reaches idxs c := by
  intro hr
  rcases reaches_inv hr with hp | hs
  · exact hnp hp
  · exact h hs

theorem chain_reaches (idxs : List Int) :
    ∀ (l : List Nat) (a : Nat),
    List.Chain' (fun u v => dstep idxs v = u) (a :: l) →
    (∀ x ∈ a :: l, x < idxs.length) →
    Reaches idxs a → ∀ x ∈ a :: l, Reaches idxs x := by
  intro l
  induction l with
  | nil =>
    intro a _ _ ha x hx
    rw [List.mem_singleton] at hx
    rwa [hx]
  | cons b t ih =>
    intro a hchain hlt ha x hx
    rw [List.chain'_cons] at hchain
    have hb : Reaches idxs b :=
      Reaches.step b (hlt b (by simp)) (by rwa [hchain.1])
    rcases List.mem_cons.mp hx with rfl | hx2
    · exact ha
    · exact ih b hchain.2 (fun y hy => hlt y (List.mem_cons_of_mem a hy)) hb x hx2

theorem chain_noreach (idxs : List Int) :
    ∀ (l : List Nat) (a : Nat),
    List.Chain' (fun u v => dstep idxs v = u) (a :: l) →
    (∀ x ∈ a :: l, ¬isPit idxs x) →
    ¬Reaches idxs a → ∀ x ∈ a :: l, ¬Reaches idxs x := by
  intro l
  induction l with
  | nil =>
    intro a _ _ ha x hx
    rw [List.mem_singleton] at hx
    rwa [hx]
  | cons b t ih =>
    intro a hchain hnp ha x hx
    rw [List.chain'_cons] at hchain
    have hb : ¬Reaches idxs b :=
      not_reaches_of_step (hnp b (by simp)) (by rwa [hchain.1])
    rcases List.mem_cons.mp hx with rfl | hx2
    · exact ha
    · exact ih b hchain.2 (fun y hy => hnp y (List.mem_cons_of_mem a hy)) hb x hx2

theorem trap_noreach (idxs : List Int) (S : List Nat)
    (hnp : ∀ x ∈ S, ¬isPit idxs x)
    (hcl : ∀ x ∈ S, dstep idxs x ∈ S) :
    ∀ x ∈ S, ¬Reaches idxs x := by
  have key : ∀ c, Reaches idxs c → c ∈ S → False := by
    intro c h
    induction h with
    | pit c hc hp => exact fun hm => hnp c hm hp
    | step c hc h ih => exact fun hm => ih (hcl c hm)
  exact fun x hx hr => key x hr hx

theorem chain_closure (idxs : List Int) :
    ∀ (l : List Nat) (a : Nat) (big : List Nat),
    List.Chain' (fun u v => dstep idxs v = u) (a :: l) →
    (∀ x ∈ a :: l, x ∈ big) →
    dstep idxs a ∈ big →
    ∀ x ∈ a :: l, dstep idxs x ∈ big := by
  intro l
  induction l with
  | nil =>
    intro a big _ _ hda x hx
    rw [List.mem_singleton] at hx
    rwa [hx]
  | cons b t ih =>
    intro a big hchain hsub hda x hx
    rw [List.chain'_cons] at hchain
    rcases List.mem_cons.mp hx with rfl | hx2
    · exact hda
    · exact ih b big hchain.2 (fun y hy => hsub y (List.mem_cons_of_mem a hy))
        (by rw [hchain.1]; exact hsub a (by simp)) x hx2

theorem rankInv_init (idxs : List Int) : RankInv idxs (fun _ => -9999) := by
  refine ⟨fun c => Or.inl rfl, fun c _ _ => Or.inl rfl, ?_, ?_, ?_⟩
  · intro c _ h
    omega
  · intro c _ h
    omega
  · intro c _ h
    omega


theorem invalidate_apply (ranks : Nat → Int) :
    ∀ (l : List Nat) (c : Nat),
    invalidate l ranks c = if c ∈ l then -1 else ranks c := by
  intro l
  induction l generalizing ranks with
  | nil => intro c; simp [invalidate]
  | cons a t ih =>
    intro c
    show invalidate t (Function.update ranks a (-1)) c = _
    rw [ih]
    by_cases h1 : c ∈ t
    · simp [h1, List.mem_cons]
    · by_cases h2 : c = a
      · subst h2
        simp [h1, Function.update_same]
      · simp [h1, h2, Function.update_noteq h2]

theorem invalidate_preserves (idxs : List Int) (ranks : Nat → Int)
    (hInv : RankInv idxs ranks) (l : List Nat)
    (hcells : ∀ x ∈ l, x < idxs.length ∧ ranks x = -9999)
    (hnp : ∀ x ∈ l, ¬isPit idxs x)
    (hnr : ∀ x ∈ l, ¬Reaches idxs x) :
    RankInv idxs (invalidate l ranks) ∧
    (∀ c, c ∉ l → invalidate l ranks c = ranks c) ∧
    (∀ x ∈ l, invalidate l ranks x = -1) := by
  have happ := invalidate_apply ranks l
  refine ⟨⟨?_, ?_, ?_, ?_, ?_⟩, ?_, ?_⟩
  · intro c
    rw [happ]
    by_cases h : c ∈ l
    · simp [h]
    · simp only [h, if_false]
      exact hInv.vals c
  · intro c hc hp
    rw [happ]
    have h : c ∉ l := fun hm => hnp c hm hp
    simp only [h, if_false]
    exact hInv.pits c hc hp
  · intro c hc hr hp
    rw [happ] at hr
    by_cases h : c ∈ l
    · simp [h] at hr
    · simp only [h, if_false] at hr
      obtain ⟨hd1, hd2, hd3⟩ := hInv.succs c hc hr hp
      have hds : dstep idxs c ∉ l := by
        intro hm
        have := (hcells _ hm).2
        omega
      rw [happ, happ]
      simp only [h, hds, if_false]
      exact ⟨hd1, hd2, hd3⟩
  · intro c hc hr
    rw [happ] at hr
    by_cases h : c ∈ l
    · simp [h] at hr
    · simp only [h, if_false] at hr
      exact hInv.reach c hc hr
  · intro c hc hr
    rw [happ] at hr
    by_cases h : c ∈ l
    · exact hnr c h
    · simp only [h, if_false] at hr
      exact hInv.noreach c hc hr
  · intro c hc
    rw [happ]
    simp [hc]
  · intro x hx
    rw [happ]
    simp [hx]


theorem assign_preserves (idxs : List Int) (hn : idxs.length ≤ 2147483648) :
    ∀ (l : List Nat) (rnk : Int) (ranks : Nat → Int) (nc : Nat),
    RankInv idxs ranks →
    l.Nodup →
    (∀ x ∈ l, x < idxs.length ∧ ranks x = -9999) →
    List.Chain' (fun u v => dstep idxs v = u) l →
    (∀ x ∈ l.tail, ¬isPit idxs x) →
    AssignAnchor idxs rnk ranks l →
    RankInv idxs (assignRanks l rnk ranks nc).1 ∧
    (∀ c, c ∉ l → (assignRanks l rnk ranks nc).1 c = ranks c) ∧
    (∀ x ∈ l, 0 ≤ (assignRanks l rnk ranks nc).1 x) ∧
    (assignRanks l rnk ranks nc).2 = nc + l.length := by
  intro l
  induction l with
  | nil =>
    intro rnk ranks nc hInv _ _ _ _ _
    exact ⟨hInv, fun c _ => rfl, by simp, by simp [assignRanks]⟩
  | cons a t ih =>
    intro rnk ranks nc hInv hnd hcells hchain htail hanchor
    simp only [AssignAnchor] at hanchor
    have ha_lt : a < idxs.length := (hcells a (by simp)).1
    have ha9 : ranks a = -9999 := (hcells a (by simp)).2
    have hrnk : -1 ≤ rnk := by
      rcases hanchor with ⟨_, h⟩ | ⟨_, h, _⟩ <;> omega
    have hreach_a : Reaches idxs a := by
      rcases hanchor with ⟨hp, _⟩ | ⟨_, _, _, _, hr⟩
      · exact Reaches.pit a ha_lt hp
      · exact Reaches.step a ha_lt hr
    have hant : a ∉ t := (List.nodup_cons.mp hnd).1
    have hnd' : t.Nodup := (List.nodup_cons.mp hnd).2
    set ranks2 := Function.update ranks a (rnk + 1) with hranks2
    have hupd_a : ranks2 a = rnk + 1 := Function.update_same a (rnk + 1) ranks
    have hupd_ne : ∀ c, c ≠ a → ranks2 c = ranks c :=
      fun c hc => Function.update_noteq hc (rnk + 1) ranks
    have hdsa_ne_a : ¬isPit idxs a → dstep idxs a ≠ a := by
      intro hnp heq
      rcases hanchor with ⟨hp, _⟩ | ⟨_, hge, _, hds, _⟩
      · exact hnp hp
      · rw [heq, ha9] at hds
        omega
    have hInv2 : RankInv idxs ranks2 := by
      refine ⟨?_, ?_, ?_, ?_, ?_⟩
      · intro c
        by_cases hc : c = a
        · subst hc
          rw [hupd_a]
          omega
        · rw [hupd_ne c hc]
          exact hInv.vals c
      · intro c hc hp
        by_cases hca : c = a
        · subst hca
          rw [hupd_a]
          rcases hanchor with ⟨_, h⟩ | ⟨hnp, _⟩
          · omega
          · exact absurd hp hnp
        · rw [hupd_ne c hca]
          exact hInv.pits c hc hp
      · intro c hc hge hnp
        by_cases hca : c = a
        · subst hca
          rcases hanchor with ⟨hp, _⟩ | ⟨_, hge2, hdlt, hds, _⟩
          · exact absurd hp hnp
          · have hne := hdsa_ne_a hnp
            rw [hupd_a]
            rw [hupd_ne _ hne, hds]
            exact ⟨hdlt, by omega, by omega⟩
        · rw [hupd_ne c hca] at hge
          obtain ⟨hd1, hd2, hd3⟩ := hInv.succs c hc hge hnp
          have hdne : dstep idxs c ≠ a := by
            intro h
            rw [h, ha9] at hd2
            omega
          rw [hupd_ne c hca, hupd_ne _ hdne]
          exact ⟨hd1, hd2, hd3⟩
      · intro c hc hge
        by_cases hca : c = a
        · subst hca
          exact hreach_a
        · rw [hupd_ne c hca] at hge
          exact hInv.reach c hc hge
      · intro c hc hm1
        by_cases hca : c = a
        · subst hca
          rw [hupd_a] at hm1
          omega
        · rw [hupd_ne c hca] at hm1
          exact hInv.noreach c hc hm1
    have hcells2 : ∀ x ∈ t, x < idxs.length ∧ ranks2 x = -9999 := by
      intro x hx
      have hxa : x ≠ a := fun h => hant (h ▸ hx)
      rw [hupd_ne x hxa]
      exact hcells x (List.mem_cons_of_mem a hx)
    have hchain2 : List.Chain' (fun u v => dstep idxs v = u) t := hchain.tail
    have htail2 : ∀ x ∈ t.tail, ¬isPit idxs x :=
      fun x hx => htail x (List.mem_of_mem_tail hx)
    have hanchor2 : AssignAnchor idxs (rnk + 1) ranks2 t := by
      cases t with
      | nil => trivial
      | cons b t2 =>
        have hdb : dstep idxs b = a := (List.chain'_cons.mp hchain).1
        exact Or.inr ⟨htail b (by simp), by omega, by rw [hdb]; exact ha_lt,
          by rw [hdb, hupd_a], by rw [hdb]; exact hreach_a⟩
    have hres : assignRanks (a :: t) rnk ranks nc
        = assignRanks t (rnk + 1) ranks2 (nc + 1) := rfl
    obtain ⟨r1, r2, r3, r4⟩ := ih (rnk + 1) ranks2 (nc + 1) hInv2 hnd' hcells2
      hchain2 htail2 hanchor2
    rw [hres]
    refine ⟨r1, ?_, ?_, by rw [r4]; simp [List.length_cons]; omega⟩
    · intro c hc
      have hct : c ∉ t := fun h => hc (List.mem_cons_of_mem a h)
      have hca : c ≠ a := fun h => hc (h ▸ List.mem_cons_self a t)
      rw [r2 c hct, hupd_ne c hca]
    · intro x hx
      rcases List.mem_cons.mp hx with rfl | hx2
      · rw [r2 x hant, hupd_a]
        omega
      · exact r3 x hx2


theorem nodup_bounded_length (n : Nat) (l : List Nat) (hnd : l.Nodup)
    (hlt : ∀ x ∈ l, x < n) : l.length ≤ n := by
  have h1 : l.toFinset.card = l.length := List.toFinset_card_of_nodup hnd
  have h2 : l.toFinset ⊆ Finset.range n := by
    intro x hx
    rw [List.mem_toFinset] at hx
    rw [Finset.mem_range]
    exact hlt x hx
  have h3 := Finset.card_le_card h2
  rw [Finset.card_range] at h3
  omega

theorem walk_spec (idxs : List Int) (hn : idxs.length ≤ 2147483648)
    (ranks : Nat → Int) (hInv : RankInv idxs ranks) :
    ∀ (fuel : Nat) (path : List Nat) (idx0 : Nat) (idxDs : Int),
    path.headI = idx0 → path ≠ [] →
    idxDs = idxs.getD idx0 0 →
    path.Nodup →
    (∀ x ∈ path, x < idxs.length ∧ ranks x = -9999) →
    List.Chain' (fun u v => dstep idxs v = u) path →
    (∀ x ∈ path.tail, ¬isPit idxs x) →
    idxs.length < fuel + path.length →
    ∃ rnk path2,
      walk idxs ranks path idx0 idxDs fuel = some (rnk, path2) ∧
      path2.Nodup ∧ path2 ≠ [] ∧
      (∀ x ∈ path, x ∈ path2) ∧
      (∀ x ∈ path2, x < idxs.length ∧ ranks x = -9999) ∧
      ((rnk = -2 ∧ (∀ x ∈ path2, ¬isPit idxs x) ∧ (∀ x ∈ path2, ¬Reaches idxs x)) ∨
       (AssignAnchor idxs rnk ranks path2 ∧ List.Chain' (fun u v => dstep idxs v = u) path2 ∧
        (∀ x ∈ path2.tail, ¬isPit idxs x) ∧ rnk ≠ -2)) := by
  intro fuel
  induction fuel with
  | zero =>
    intro path idx0 idxDs hhead hne hds hnd hcells hchain htail hfuel
    exfalso
    have := nodup_bounded_length idxs.length path hnd (fun x hx => (hcells x hx).1)
    omega
  | succ fuel ih =>
    intro path idx0 idxDs hhead hne hds hnd hcells hchain htail hfuel
    obtain ⟨p0, rest, rfl⟩ : ∃ p0 rest, path = p0 :: rest := by
      cases path with
      | nil => exact absurd rfl hne
      | cons p0 rest => exact ⟨p0, rest, rfl⟩
    have hp0 : p0 = idx0 := hhead
    subst hp0
    have hp0_lt : p0 < idxs.length := (hcells p0 (by simp)).1
    have hp0_9 : ranks p0 = -9999 := (hcells p0 (by simp)).2
    show ∃ rnk path2,
      (if idxs.length ≤ asUsize idxDs then some (-2, p0 :: rest)
       else if 0 ≤ ranks (asUsize idxDs) then some (ranks (asUsize idxDs), p0 :: rest)
       else if idxDs = toI32 p0 then some (-1, p0 :: rest)
       else if ranks (asUsize idxDs) = -1 ∨ asUsize idxDs ∈ p0 :: rest then some (-2, p0 :: rest)
       else walk idxs ranks (asUsize idxDs :: p0 :: rest) (asUsize idxDs)
         (idxs.getD (asUsize idxDs) 0) fuel) = some (rnk, path2) ∧ _
    have hdstep : dstep idxs p0 = asUsize idxDs := by
      rw [dstep, hds]
    by_cases h1 : idxs.length ≤ asUsize idxDs
    · rw [if_pos h1]
      have hnp0 : ¬isPit idxs p0 := by
        intro hp
        rw [isPit] at hp
        have : asUsize idxDs = p0 := by
          rw [hds, hp]
          exact asUsize_cell idxs.length p0 hn hp0_lt
        omega
      have hnr0 : ¬Reaches idxs p0 := by
        apply not_reaches_of_step hnp0
        intro hr
        have := reaches_lt hr
        rw [hdstep] at this
        omega
      have hallnp : ∀ x ∈ p0 :: rest, ¬isPit idxs x := by
        intro x hx
        rcases List.mem_cons.mp hx with rfl | hx2
        · exact hnp0
        · exact htail x hx2
      refine ⟨-2, p0 :: rest, rfl, hnd, by simp, fun x hx => hx, hcells,
        Or.inl ⟨rfl, hallnp, chain_noreach idxs rest p0 hchain hallnp hnr0⟩⟩
    · rw [if_neg h1]
      by_cases h2 : 0 ≤ ranks (asUsize idxDs)
      · rw [if_pos h2]
        have hnp0 : ¬isPit idxs p0 := by
          intro hp
          rw [isPit] at hp
          have he : asUsize idxDs = p0 := by
            rw [hds, hp]
            exact asUsize_cell idxs.length p0 hn hp0_lt
          rw [he, hp0_9] at h2
          omega
        refine ⟨ranks (asUsize idxDs), p0 :: rest, rfl, hnd, by simp,
          fun x hx => hx, hcells, Or.inr ⟨?_, hchain, htail, by omega⟩⟩
        exact Or.inr ⟨hnp0, h2, by rw [hdstep]; omega,
          by rw [hdstep], by rw [hdstep]; exact hInv.reach _ (by omega) h2⟩
      · rw [if_neg h2]
        by_cases h3 : idxDs = toI32 p0
        · rw [if_pos h3]
          refine ⟨-1, p0 :: rest, rfl, hnd, by simp, fun x hx => hx, hcells,
            Or.inr ⟨Or.inl ⟨by rw [isPit, ← hds]; exact h3, rfl⟩, hchain, htail, by omega⟩⟩
        · rw [if_neg h3]
          have hnp0 : ¬isPit idxs p0 := by
            rw [isPit, ← hds]
            exact h3
          have hallnp : ∀ x ∈ p0 :: rest, ¬isPit idxs x := by
            intro x hx
            rcases List.mem_cons.mp hx with rfl | hx2
            · exact hnp0
            · exact htail x hx2
          by_cases h4 : ranks (asUsize idxDs) = -1 ∨ asUsize idxDs ∈ p0 :: rest
          · rw [if_pos h4]
            refine ⟨-2, p0 :: rest, rfl, hnd, by simp, fun x hx => hx, hcells,
              Or.inl ⟨rfl, hallnp, ?_⟩⟩
            rcases h4 with h4 | h4
            · have hdlt : asUsize idxDs < idxs.length := by omega
              have hnrd : ¬Reaches idxs (asUsize idxDs) := hInv.noreach _ hdlt h4
              have hnr0 : ¬Reaches idxs p0 := by
                apply not_reaches_of_step hnp0
                rwa [hdstep]
              exact chain_noreach idxs rest p0 hchain hallnp hnr0
            · apply trap_noreach idxs (p0 :: rest) hallnp
              exact chain_closure idxs rest p0 (p0 :: rest) hchain
                (fun y hy => hy) (by rwa [hdstep])
          · rw [if_neg h4]
            push_neg at h4
            obtain ⟨h4a, h4b⟩ := h4
            have hd9 : ranks (asUsize idxDs) = -9999 := by
              rcases hInv.vals (asUsize idxDs) with h | h | h
              · exact h
              · exact absurd h h4a
              · exact absurd h h2
            have hcells2 : ∀ x ∈ asUsize idxDs :: p0 :: rest,
                x < idxs.length ∧ ranks x = -9999 := by
              intro x hx
              rcases List.mem_cons.mp hx with rfl | hx2
              · exact ⟨by omega, hd9⟩
              · exact hcells x hx2
            have hchain2 : List.Chain' (fun u v => dstep idxs v = u)
                (asUsize idxDs :: p0 :: rest) :=
              List.chain'_cons.mpr ⟨hdstep, hchain⟩
            obtain ⟨rnk, path2, hw, hrest⟩ := ih (asUsize idxDs :: p0 :: rest)
              (asUsize idxDs) (idxs.getD (asUsize idxDs) 0) rfl (by simp) rfl
              (List.nodup_cons.mpr ⟨h4b, hnd⟩) hcells2 hchain2 hallnp
              (by simp only [List.length_cons] at hfuel ⊢; omega)
            refine ⟨rnk, path2, hw, hrest.1, hrest.2.1, ?_, hrest.2.2.2⟩
            intro x hx
            exact hrest.2.2.1 x (List.mem_cons_of_mem _ hx)


theorem processOne_preserves (idxs : List Int) (hn : idxs.length ≤ 2147483648)
    (st : (Nat → Int) × Nat) (idx0 : Nat) (hidx0 : idx0 < idxs.length)
    (hInv : RankInv idxs st.1) :
    RankInv idxs (processOne idxs st idx0).1 ∧
    (∀ c, st.1 c ≠ -9999 → (processOne idxs st idx0).1 c = st.1 c) ∧
    ((processOne idxs st idx0).1 idx0 ≠ -9999 ∨ idxs.getD idx0 0 = -1) ∧
    processOneOpt idxs st idx0 = some (processOne idxs st idx0) := by
  by_cases hskip : idxs.getD idx0 0 = -1 ∨ st.1 idx0 ≠ -9999
  · have hpo : processOne idxs st idx0 = st := by
      unfold processOne
      rw [if_pos hskip]
    have hpoo : processOneOpt idxs st idx0 = some st := by
      unfold processOneOpt
      rw [if_pos hskip]
    rw [hpo, hpoo]
    refine ⟨hInv, fun c _ => rfl, ?_, rfl⟩
    rcases hskip with h | h
    · exact Or.inr h
    · exact Or.inl h
  · push_neg at hskip
    obtain ⟨hds_ne, h9⟩ := hskip
    have h9' : st.1 idx0 = -9999 := by tauto
    obtain ⟨rnk, path2, hw, hnd2, hne2, hsub2, hcells2, hcase⟩ :=
      walk_spec idxs hn st.1 hInv (idxs.length + 1) [idx0] idx0
        (idxs.getD idx0 0) rfl (by simp) rfl (List.nodup_singleton idx0)
        (by
          intro x hx
          rw [List.mem_singleton] at hx
          subst hx
          exact ⟨hidx0, h9'⟩)
        (List.chain'_singleton idx0)
        (by simp)
        (by simp only [List.length_singleton]; omega)
    have hidx0_in : idx0 ∈ path2 := hsub2 idx0 (by simp)
    have hpo : processOne idxs st idx0 =
        (if rnk = -2 then (invalidate path2 st.1, st.2)
         else assignRanks path2 rnk st.1 st.2) := by
      unfold processOne
      rw [if_neg (by tauto), hw]
    have hpoo : processOneOpt idxs st idx0 =
        some (if rnk = -2 then (invalidate path2 st.1, st.2)
         else assignRanks path2 rnk st.1 st.2) := by
      unfold processOneOpt
      rw [if_neg (by tauto), hw]
      show (if rnk = -2 then some (invalidate path2 st.1, st.2)
            else some (assignRanks path2 rnk st.1 st.2)) = _
      by_cases h : rnk = -2
      · rw [if_pos h, if_pos h]
      · rw [if_neg h, if_neg h]
    by_cases hr2 : rnk = -2
    · rcases hcase with ⟨_, hnp, hnr⟩ | ⟨_, _, _, hne⟩
      · rw [hpo, hpoo, if_pos hr2]
        obtain ⟨i1, i2, i3⟩ := invalidate_preserves idxs st.1 hInv path2 hcells2 hnp hnr
        refine ⟨i1, ?_, ?_, rfl⟩
        · intro c hc
          apply i2
          intro hm
          exact hc (hcells2 c hm).2
        · left
          show invalidate path2 st.1 idx0 ≠ -9999
          rw [i3 idx0 hidx0_in]
          omega
      · exact absurd hr2 hne
    · rcases hcase with ⟨hrr, _, _⟩ | ⟨hanchor, hchain2, htail2, _⟩
      · exact absurd hrr hr2
      · rw [hpo, hpoo, if_neg hr2]
        obtain ⟨a1, a2, a3, a4⟩ := assign_preserves idxs hn path2 rnk st.1 st.2
          hInv hnd2 hcells2 hchain2 htail2
          (by
            cases path2 with
            | nil => trivial
            | cons b t => exact hanchor)
        refine ⟨a1, ?_, ?_, rfl⟩
        · intro c hc
          apply a2
          intro hm
          exact hc (hcells2 c hm).2
        · left
          have := a3 idx0 hidx0_in
          omega

theorem rank_fold_spec (idxs : List Int) (hn : idxs.length ≤ 2147483648) :
    ∀ (L : List Nat) (st : (Nat → Int) × Nat), RankInv idxs st.1 →
    (∀ x ∈ L, x < idxs.length) →
    RankInv idxs (L.foldl (processOne idxs) st).1 ∧
    (∀ c, st.1 c ≠ -9999 → (L.foldl (processOne idxs) st).1 c = st.1 c) ∧
    (∀ x ∈ L, (L.foldl (processOne idxs) st).1 x ≠ -9999 ∨ idxs.getD x 0 = -1) ∧
    L.foldlM (processOneOpt idxs) st = some (L.foldl (processOne idxs) st) := by
  intro L
  induction L with
  | nil =>
    intro st hInv _
    exact ⟨hInv, fun c _ => rfl, by simp, rfl⟩
  | cons a L2 ih =>
    intro st hInv hlt
    have ha := processOne_preserves idxs hn st a (hlt a (by simp)) hInv
    obtain ⟨p1, p2, p3, p4⟩ := ha
    obtain ⟨f1, f2, f3, f4⟩ := ih (processOne idxs st a) p1
      (fun x hx => hlt x (List.mem_cons_of_mem a hx))
    have hfold : (a :: L2).foldl (processOne idxs) st
        = L2.foldl (processOne idxs) (processOne idxs st a) := rfl
    refine ⟨by rw [hfold]; exact f1, ?_, ?_, ?_⟩
    · intro c hc
      rw [hfold, f2 c (by rw [p2 c hc]; exact hc), p2 c hc]
    · intro x hx
      rcases List.mem_cons.mp hx with rfl | hx2
      · rcases p3 with h | h
        · left
          rw [hfold, f2 x h]
          exact h
        · exact Or.inr h
      · rw [hfold]
        exact f3 x hx2
    · rw [List.foldlM_cons, p4]
      show L2.foldlM (processOneOpt idxs) (processOne idxs st a) = _
      rw [f4, hfold]


theorem asUsize_eq_toNat (e : Int) (h0 : 0 ≤ e) (h1 : e < 18446744073709551616) :
    asUsize e = e.toNat := by
  unfold asUsize
  rw [Int.emod_eq_of_lt h0 h1]

theorem rank_spec (idxs : List Int) (hn : idxs.length ≤ 2147483648)
    (pits : List Bool) :
    RankInv idxs (rank idxs pits).1 ∧
    (∀ c, c < idxs.length → (rank idxs pits).1 c ≠ -9999 ∨ idxs.getD c 0 = -1) ∧
    rankOpt idxs = some (rank idxs pits) := by
  obtain ⟨f1, f2, f3, f4⟩ := rank_fold_spec idxs hn (List.range idxs.length)
    ((fun _ => -9999), 0) (rankInv_init idxs) (fun x hx => List.mem_range.mp hx)
  exact ⟨f1, fun c hc => f3 c (List.mem_range.mpr hc), f4⟩

theorem reaches_entry_ne (idxs : List Int) (hn : idxs.length ≤ 2147483648)
    {c : Nat} (hr : Reaches idxs c) : idxs.getD c 0 ≠ -1 := by
  cases hr with
  | pit c hc hp =>
    rw [hp, toI32_cell idxs.length c hn hc]
    omega
  | step c hc h =>
    intro he
    have hlt := reaches_lt h
    rw [dstep, he, asUsize_neg_one] at hlt
    omega

theorem rank_pit_zero (idxs : List Int) (hn : idxs.length ≤ 2147483648)
    (pits : List Bool) (c : Nat) (hc : c < idxs.length)
    (hp : idxs.getD c 0 = (c : Int)) : (rank idxs pits).1 c = 0 := by
  obtain ⟨hInv, hdet, _⟩ := rank_spec idxs hn pits
  have hpit : isPit idxs c := by
    rw [isPit, toI32_cell idxs.length c hn hc]
    exact hp
  have hne : idxs.getD c 0 ≠ -1 := by
    rw [hp]
    omega
  have h9 : (rank idxs pits).1 c ≠ -9999 := by
    rcases hdet c hc with h | h
    · exact h
    · exact absurd h hne
  have hr : Reaches idxs c := Reaches.pit c hc hpit
  rcases hInv.vals c with h | h | h
  · exact absurd h h9
  · exact absurd hr (hInv.noreach c hc h)
  · rcases hInv.pits c hc hpit with h2 | h2
    · exact absurd h2 h9
    · exact h2

theorem rank_nonneg_iff (idxs : List Int) (hn : idxs.length ≤ 2147483648)
    (pits : List Bool) (c : Nat) (hc : c < idxs.length) :
    0 ≤ (rank idxs pits).1 c ↔ Reaches idxs c := by
  obtain ⟨hInv, hdet, _⟩ := rank_spec idxs hn pits
  constructor
  · exact hInv.reach c hc
  · intro hr
    have hne := reaches_entry_ne idxs hn hr
    have h9 : (rank idxs pits).1 c ≠ -9999 := by
      rcases hdet c hc with h | h
      · exact h
      · exact absurd h hne
    rcases hInv.vals c with h | h | h
    · exact absurd h h9
    · exact absurd hr (hInv.noreach c hc h)
    · exact h

/-- C3: on a downstream-index array whose every entry is the cell itself
or an in-range index (and whose length is i32-addressable), every
self-loop cell gets rank 0 and every resolved non-pit cell has rank one
greater than the rank of its downstream cell. -/
theorem rank_c3 (idxs : List Int) (pits : List Bool)
    (hn : idxs.length ≤ 2147483648)
    (hwf : ∀ c, c < idxs.length → idxs.getD c 0 = (c : Int) ∨
      (0 ≤ idxs.getD c 0 ∧ idxs.getD c 0 < (idxs.length : Int))) :
    (∀ c, c < idxs.length → idxs.getD c 0 = (c : Int) →
      (rank idxs pits).1 c = 0) ∧
    (∀ c, c < idxs.length → idxs.getD c 0 ≠ (c : Int) →
      0 ≤ (rank idxs pits).1 c →
      (rank idxs pits).1 c =
        (rank idxs pits).1 (idxs.getD c 0).toNat + 1) := by
  obtain ⟨hInv, hdet, _⟩ := rank_spec idxs hn pits
  refine ⟨fun c hc hp => rank_pit_zero idxs hn pits c hc hp, ?_⟩
  intro c hc hnp hge
  have hpit : ¬isPit idxs c := by
    rw [isPit, toI32_cell idxs.length c hn hc]
    exact hnp
  obtain ⟨hd1, hd2, hd3⟩ := hInv.succs c hc hge hpit
  have hent : 0 ≤ idxs.getD c 0 ∧ idxs.getD c 0 < (idxs.length : Int) := by
    rcases hwf c hc with h | h
    · exact absurd h hnp
    · exact h
  have hds : dstep idxs c = (idxs.getD c 0).toNat := by
    rw [dstep]
    exact asUsize_eq_toNat _ hent.1 (by omega)
  rw [← hds, hd2]
  omega

/-- Witness for C3 at the core.rs unit-test array [1, 2, 2]. -/
theorem rank_c3_witness :
    ((∀ c, c < ([1, 2, 2] : List Int).length → ([1, 2, 2] : List Int).getD c 0 = (c : Int) →
      (rank [1, 2, 2] [false, false, true]).1 c = 0) ∧
    (∀ c, c < ([1, 2, 2] : List Int).length → ([1, 2, 2] : List Int).getD c 0 ≠ (c : Int) →
      0 ≤ (rank [1, 2, 2] [false, false, true]).1 c →
      (rank [1, 2, 2] [false, false, true]).1 c =
        (rank [1, 2, 2] [false, false, true]).1 (([1, 2, 2] : List Int).getD c 0).toNat + 1)) :=
  rank_c3 [1, 2, 2] [false, false, true] (by decide) (by decide)

/-- C9: the core rank function never reads its pits argument (the two
results are definitionally equal for any two pit arrays), and every
self-loop cell — whatever its validity elsewhere — receives rank 0. -/
theorem rank_c9 (idxs : List Int) (p1 p2 : List Bool)
    (hn : idxs.length ≤ 2147483648) :
    rank idxs p1 = rank idxs p2 ∧
    (∀ c, c < idxs.length → idxs.getD c 0 = (c : Int) →
      (rank idxs p1).1 c = 0) :=
  ⟨rfl, fun c hc hp => rank_pit_zero idxs hn p1 c hc hp⟩

/-- Witness for C9: a one-cell self-loop (as built from the no-data grid
[255], whose only cell is flagged invalid) gets rank 0, with any two pit
arguments. -/
theorem rank_c9_witness :
    (rank [0] [] = rank [0] [true]) ∧
    (∀ c, c < ([0] : List Int).length → ([0] : List Int).getD c 0 = (c : Int) →
      (rank [0] []).1 c = 0) :=
  rank_c9 [0] [] [true] (by decide)

/-- C4 (amended): the rank computation terminates on every input (the
instrumented rankOpt never hits the fuel marker and agrees with rank),
and every cell whose downstream chain never reaches a pit — in
particular every cell on a cycle and every cell whose chain leaves the
valid index range — ends with a negative sentinel: -1, or the untouched
initialisation -9999 when the loop skipped it as a missing value. -/
theorem rank_c4 (idxs : List Int) (pits : List Bool)
    (hn : idxs.length ≤ 2147483648) :
    rankOpt idxs = some (rank idxs pits) ∧
    (∀ c, c < idxs.length → ¬Reaches idxs c →
      (rank idxs pits).1 c = -1 ∨ (rank idxs pits).1 c = -9999) := by
  obtain ⟨hInv, _, hopt⟩ := rank_spec idxs hn pits
  refine ⟨hopt, ?_⟩
  intro c hc hnr
  rcases hInv.vals c with h | h | h
  · exact Or.inr h
  · exact Or.inl h
  · exact absurd (hInv.reach c hc h) hnr

theorem no_reach_cycle2 : ∀ c, ¬Reaches ([1, 0] : List Int) c := by
  intro c h
  induction h with
  | pit c hc hp =>
    have hc2 : c < 2 := by simpa using hc
    have : c = 0 ∨ c = 1 := by omega
    rcases this with rfl | rfl <;> simp [toI32] at hp
  | step c hc h ih => exact ih

/-- Witness for C4 at the two-cell cycle [1, 0]. -/
theorem rank_c4_witness :
    (rankOpt [1, 0] = some (rank [1, 0] []) ∧
      ((rank [1, 0] []).1 0 = -1 ∨ (rank [1, 0] []).1 0 = -9999)) :=
  ⟨(rank_c4 [1, 0] [] (by decide)).1,
   (rank_c4 [1, 0] [] (by decide)).2 0 (by decide) (no_reach_cycle2 0)⟩

/-- C4 (counterexample to the claim as stated): the invalid sentinel the
rank loop assigns to cycle cells is -1 (both cells of the cycle [1, 0]
get it), but a cell whose own entry is -1 — a downstream index out of
the valid range — is skipped as a missing value and keeps the distinct
initialisation value -9999, which the spec says must not appear in the
final result. -/
theorem rank_c4_cx :
    (rank [-1] []).1 0 = -9999 ∧ (rank [-1] []).1 0 ≠ -1 ∧
    (rank [1, 0] []).1 0 = -1 ∧ (rank [1, 0] []).1 1 = -1 := by
  refine ⟨by decide, by decide, by decide, by decide⟩


/-! ## C8: the rank cache -/

/-- C8: on a FlwdirRaster whose rank cache is unset (as every instance
built by from_array is), the first call to the rank method computes the
core rank of the i32-cast downstream array, stores it in the cache, and
changes no other field; the second call returns the very same state and
array, so the cache is written at most once. -/
theorem rank_cache_spec (s : FlwdirRaster) (h : s.rank_cache = none) :
    (s.rank).1.rank = s.rank ∧
    (s.rank).1.rank_cache = some (s.rank).2 ∧
    (s.rank).2 = (Pyflwdir.rank s.get_idxs_ds_i32
      (List.replicate s.idxs_ds.length false)).1 ∧
    (s.rank).1.idxs_ds = s.idxs_ds ∧
    (s.rank).1.shape = s.shape ∧
    (s.rank).1.valid_mask = s.valid_mask ∧
    (s.rank).1.pit_indices = s.pit_indices ∧
    (s.rank).1.upstream_counts = s.upstream_counts := by
  unfold FlwdirRaster.rank
  rw [h]
  exact ⟨rfl, rfl, rfl, rfl, rfl, rfl, rfl, rfl⟩


/-- Witness for C8 on the raster built from the 2x2 scenario grid. -/
theorem rank_cache_spec_witness :
    (let s := FlwdirRaster.from_array 2 2 [2, 4, 1, 0]
     (s.rank).1.rank = s.rank ∧
     (s.rank).1.rank_cache = some (s.rank).2 ∧
     (s.rank).2 = (Pyflwdir.rank s.get_idxs_ds_i32
       (List.replicate s.idxs_ds.length false)).1 ∧
     (s.rank).1.idxs_ds = s.idxs_ds ∧
     (s.rank).1.shape = s.shape ∧
     (s.rank).1.valid_mask = s.valid_mask ∧
     (s.rank).1.pit_indices = s.pit_indices ∧
     (s.rank).1.upstream_counts = s.upstream_counts) :=
  rank_cache_spec (FlwdirRaster.from_array 2 2 [2, 4, 1, 0]) rfl


theorem filter_cons_pos {p : Nat → Bool} {a : Nat} (l : List Nat)
    (h : p a = true) : (a :: l).filter p = a :: l.filter p := by
  simp only [List.filter_cons, h, if_true]

theorem filter_cons_neg {p : Nat → Bool} {a : Nat} (l : List Nat)
    (h : p a = false) : (a :: l).filter p = l.filter p := by
  simp only [List.filter_cons, h, Bool.false_eq_true, if_false]

/-! ## C7: the upstream-count sum -/

theorem ucount_sum_fold (idxs : List Nat) (m : Nat → Bool) :
    ∀ (L : List Nat) (nup : Nat → Int),
    (∀ t, 0 ≤ nup t ∧ nup t +
      ((L.filter (fun i => idxs.getD i 0 == t && !(i == t) &&
        decide (idxs.getD i 0 < idxs.length) && m i)).length : Int) ≤ 127) →
    Finset.sum (Finset.range idxs.length)
      (L.foldl (fun nup idx0 =>
        let idxDs := idxs.getD idx0 0
        if idxDs ≠ idx0 ∧ idxDs < idxs.length ∧ m idx0 = true then
          Function.update nup idxDs (i8wrap (nup idxDs + 1))
        else nup) nup) =
    Finset.sum (Finset.range idxs.length) nup +
      ((L.filter (fun i => !(idxs.getD i 0 == i) &&
        decide (idxs.getD i 0 < idxs.length) && m i)).length : Int) := by
  intro L
  induction L with
  | nil =>
    intro nup _
    simp
  | cons a L2 ih =>
    intro nup hbound
    have hfoldstep : ∀ (g : Nat → Int),
        (a :: L2).foldl (fun nup idx0 =>
          let idxDs := idxs.getD idx0 0
          if idxDs ≠ idx0 ∧ idxDs < idxs.length ∧ m idx0 = true then
            Function.update nup idxDs (i8wrap (nup idxDs + 1))
          else nup) g =
        L2.foldl (fun nup idx0 =>
          let idxDs := idxs.getD idx0 0
          if idxDs ≠ idx0 ∧ idxDs < idxs.length ∧ m idx0 = true then
            Function.update nup idxDs (i8wrap (nup idxDs + 1))
          else nup)
          (let idxDs := idxs.getD a 0
           if idxDs ≠ a ∧ idxDs < idxs.length ∧ m a = true then
             Function.update g idxDs (i8wrap (g idxDs + 1))
           else g) := fun g => rfl
    by_cases hpush : idxs.getD a 0 ≠ a ∧ idxs.getD a 0 < idxs.length ∧ m a = true
    · obtain ⟨hp1, hp2, hp3⟩ := hpush
      have ht0ne : a ≠ idxs.getD a 0 := fun h => hp1 h.symm
      have hmemA : (idxs.getD a 0 == idxs.getD a 0 && !(a == idxs.getD a 0) &&
          decide (idxs.getD a 0 < idxs.length) && m a) = true := by
        simp only [Bool.and_eq_true, beq_iff_eq, Bool.not_eq_true',
          beq_eq_false_iff_ne, decide_eq_true_eq]
        exact ⟨⟨⟨trivial, ht0ne⟩, hp2⟩, hp3⟩
      have hpushA : (!(idxs.getD a 0 == a) &&
          decide (idxs.getD a 0 < idxs.length) && m a) = true := by
        simp only [Bool.and_eq_true, Bool.not_eq_true',
          beq_eq_false_iff_ne, decide_eq_true_eq]
        exact ⟨⟨hp1, hp2⟩, hp3⟩
      have hwrap : i8wrap (nup (idxs.getD a 0) + 1) = nup (idxs.getD a 0) + 1 := by
        have hb := hbound (idxs.getD a 0)
        rw [filter_cons_pos L2 hmemA] at hb
        simp only [List.length_cons] at hb
        apply i8wrap_id
        · omega
        · push_cast at hb
          have hlen0 : (0 : Int) ≤ ((L2.filter
              (fun i => idxs.getD i 0 == idxs.getD a 0 && !(i == idxs.getD a 0) &&
              decide (idxs.getD i 0 < idxs.length) && m i)).length : Int) := by positivity
          omega
      set nup2 := Function.update nup (idxs.getD a 0) (nup (idxs.getD a 0) + 1) with hnup2
      have hstep_eq : (let idxDs := idxs.getD a 0
           if idxDs ≠ a ∧ idxDs < idxs.length ∧ m a = true then
             Function.update nup idxDs (i8wrap (nup idxDs + 1))
           else nup) = nup2 := by
        simp only []
        rw [if_pos ⟨hp1, hp2, hp3⟩, hwrap]
      have hbound2 : ∀ t, 0 ≤ nup2 t ∧ nup2 t +
          ((L2.filter (fun i => idxs.getD i 0 == t && !(i == t) &&
            decide (idxs.getD i 0 < idxs.length) && m i)).length : Int) ≤ 127 := by
        intro t
        by_cases ht : t = idxs.getD a 0
        · have hb := hbound t
          have hmemT : (idxs.getD a 0 == t && !(a == t) &&
              decide (idxs.getD a 0 < idxs.length) && m a) = true := by
            rw [ht]
            exact hmemA
          rw [filter_cons_pos L2 hmemT] at hb
          simp only [List.length_cons] at hb
          have hupd : nup2 t = nup t + 1 := by
            rw [ht]
            exact Function.update_same _ _ nup
          rw [hupd]
          push_cast at hb ⊢
          omega
        · have hupd : nup2 t = nup t :=
            Function.update_noteq (fun h => ht h) _ nup
          rw [hupd]
          have hb := hbound t
          have hmemT : (idxs.getD a 0 == t && !(a == t) &&
              decide (idxs.getD a 0 < idxs.length) && m a) = false := by
            have hA : (idxs.getD a 0 == t) = false := by
              rw [beq_eq_false_iff_ne]
              exact fun h => ht h.symm
            rw [hA]
            simp
          rw [filter_cons_neg L2 hmemT] at hb
          exact hb
      have hsum2 : Finset.sum (Finset.range idxs.length) nup2 =
          Finset.sum (Finset.range idxs.length) nup + 1 := by
        have hmem : idxs.getD a 0 ∈ Finset.range idxs.length := Finset.mem_range.mpr hp2
        rw [hnup2, Finset.sum_update_of_mem hmem, Finset.sdiff_singleton_eq_erase]
        rw [← Finset.add_sum_erase (Finset.range idxs.length) nup hmem]
        ring
      rw [hfoldstep nup, hstep_eq, ih nup2 hbound2, hsum2]
      rw [filter_cons_pos L2 hpushA]
      simp only [List.length_cons]
      push_cast
      ring
    · have hstep_eq : (let idxDs := idxs.getD a 0
           if idxDs ≠ a ∧ idxDs < idxs.length ∧ m a = true then
             Function.update nup idxDs (i8wrap (nup idxDs + 1))
           else nup) = nup := by
        simp only []
        rw [if_neg hpush]
      have hbound2 : ∀ t, 0 ≤ nup t ∧ nup t +
          ((L2.filter (fun i => idxs.getD i 0 == t && !(i == t) &&
            decide (idxs.getD i 0 < idxs.length) && m i)).length : Int) ≤ 127 := by
        intro t
        have hb := hbound t
        have hsub : (L2.filter (fun i => idxs.getD i 0 == t && !(i == t) &&
            decide (idxs.getD i 0 < idxs.length) && m i)).length ≤
            ((a :: L2).filter (fun i => idxs.getD i 0 == t && !(i == t) &&
            decide (idxs.getD i 0 < idxs.length) && m i)).length := by
          rcases Bool.eq_false_or_eq_true (idxs.getD a 0 == t && !(a == t) &&
              decide (idxs.getD a 0 < idxs.length) && m a) with h | h
          · rw [filter_cons_pos L2 h]
            simp only [List.length_cons]
            omega
          · rw [filter_cons_neg L2 h]
        constructor
        · exact hb.1
        · have := hb.2
          omega
      have hpushA : (!(idxs.getD a 0 == a) &&
          decide (idxs.getD a 0 < idxs.length) && m a) = false := by
        by_cases h1 : idxs.getD a 0 = a
        · have hh : (idxs.getD a 0 == a) = true := beq_iff_eq.mpr h1
          rw [hh]
          simp
        · by_cases h2 : idxs.getD a 0 < idxs.length
          · have h3 : m a = false := by
              rcases Bool.eq_false_or_eq_true (m a) with h | h
              · exact absurd ⟨h1, h2, h⟩ hpush
              · exact h
            rw [h3]
            simp
          · have hh : decide (idxs.getD a 0 < idxs.length) = false := decide_eq_false h2
            rw [hh]
            simp
      rw [hfoldstep nup, hstep_eq, ih nup hbound2]
      rw [filter_cons_neg L2 hpushA]


theorem d8_cell_ne_self (nrows ncols : Nat) (d8 : List Nat) (i : Nat)
    (hb256 : d8.getD i 0 < 256)
    (hne : d8_cell nrows ncols d8 i ≠ i) :
    d8.getD i 0 ≠ 0 ∧ VALIDval (d8.getD i 0) = true ∧
    0 ≤ ((i / ncols : Nat) : Int) + DRval (d8.getD i 0) ∧
    ((i / ncols : Nat) : Int) + DRval (d8.getD i 0) < (nrows : Int) ∧
    0 ≤ ((i % ncols : Nat) : Int) + DCval (d8.getD i 0) ∧
    ((i % ncols : Nat) : Int) + DCval (d8.getD i 0) < (ncols : Int) ∧
    d8_cell nrows ncols d8 i =
      (((i / ncols : Nat) : Int) + DRval (d8.getD i 0)).toNat * ncols +
        (((i % ncols : Nat) : Int) + DCval (d8.getD i 0)).toNat := by
  by_cases h0 : d8.getD i 0 = 0
  · exact absurd (d8_cell_pit nrows ncols d8 i h0) hne
  by_cases hval : VALIDval (d8.getD i 0) = true
  case neg =>
    have hvl : VALID_LOOKUP.getD (d8.getD i 0) false ≠ true := by
      rw [VALID_LOOKUP_getD _ hb256]
      exact hval
    exact absurd (d8_cell_invalid nrows ncols d8 i hvl) hne
  by_cases hbnd : 0 ≤ ((i / ncols : Nat) : Int) + DRval (d8.getD i 0) ∧
      ((i / ncols : Nat) : Int) + DRval (d8.getD i 0) < (nrows : Int) ∧
      0 ≤ ((i % ncols : Nat) : Int) + DCval (d8.getD i 0) ∧
      ((i % ncols : Nat) : Int) + DCval (d8.getD i 0) < (ncols : Int)
  case neg =>
    exact absurd (d8_cell_oob nrows ncols d8 i h0 hb256 hbnd) hne
  obtain ⟨b1, b2, b3, b4⟩ := hbnd
  exact ⟨h0, hval, b1, b2, b3, b4,
    d8_cell_compass nrows ncols d8 i _ rfl h0 hb256 hval b1 b2 b3 b4⟩

/-- The Finset of the 8 compass (delta row, delta col) offsets. -/
theorem compass_offset_mem (v : Nat) (hval : VALIDval v = true) (h0 : v ≠ 0) :
    (DRval v, DCval v) ∈
      ({(-1, 0), (-1, 1), (0, 1), (1, 1), (1, 0), (1, -1), (0, -1), (-1, -1)} :
        Finset (Int × Int)) := by
  rcases VALIDval_cases v hval with h | h | h | h | h | h | h | h | h <;> subst h <;>
    first | decide | exact absurd rfl h0

theorem fanin_le_8 (nrows ncols : Nat) (d8 : List Nat)
    (hb : ∀ v ∈ d8, v < 256) (hlen : d8.length = nrows * ncols) (t : Nat) :
    (((List.range (nrows * ncols)).filter
      (fun i => d8_cell nrows ncols d8 i == t && !(i == t))).length) ≤ 8 := by
  have hb256 : ∀ i, i < nrows * ncols → d8.getD i 0 < 256 := by
    intro i hi
    have h2 : i < d8.length := by omega
    rw [List.getD_eq_getElem d8 0 h2]
    exact hb _ (List.getElem_mem h2)
  set P : Nat → Bool := fun i => d8_cell nrows ncols d8 i == t && !(i == t) with hP
  have hchar : ∀ i, i < nrows * ncols → P i = true →
      d8_cell nrows ncols d8 i = t ∧ i ≠ t := by
    intro i hi hp
    rw [hP] at hp
    simp only [Bool.and_eq_true, beq_iff_eq, Bool.not_eq_true',
      beq_eq_false_iff_ne] at hp
    exact hp
  have hnd : ((List.range (nrows * ncols)).filter P).Nodup :=
    (List.nodup_range (nrows * ncols)).filter P
  rw [← List.toFinset_card_of_nodup hnd]
  have h8 : ({(-1, 0), (-1, 1), (0, 1), (1, 1), (1, 0), (1, -1), (0, -1), (-1, -1)} :
      Finset (Int × Int)).card = 8 := by decide
  rw [← h8]
  apply Finset.card_le_card_of_injOn
    (fun i => (DRval (d8.getD i 0), DCval (d8.getD i 0)))
  · intro a ha
    rw [List.mem_toFinset, List.mem_filter, List.mem_range] at ha
    obtain ⟨hchar1, _⟩ := hchar a ha.1 ha.2
    have hne : d8_cell nrows ncols d8 a ≠ a := by
      rw [hchar1]
      exact (hchar a ha.1 ha.2).2.symm 
    obtain ⟨h0, hval, _⟩ := d8_cell_ne_self nrows ncols d8 a (hb256 a ha.1) hne
    exact compass_offset_mem _ hval h0
  · intro a ha b hbm hf
    rw [Finset.mem_coe, List.mem_toFinset, List.mem_filter, List.mem_range] at ha hbm
    obtain ⟨hta, hnta⟩ := hchar a ha.1 ha.2
    obtain ⟨htb, hntb⟩ := hchar b hbm.1 hbm.2
    have hnea : d8_cell nrows ncols d8 a ≠ a := by
      rw [hta]; exact fun h => hnta h.symm 
    have hneb : d8_cell nrows ncols d8 b ≠ b := by
      rw [htb]; exact fun h => hntb h.symm 
    obtain ⟨_, _, a1, a2, a3, a4, aeq⟩ :=
      d8_cell_ne_self nrows ncols d8 a (hb256 a ha.1) hnea
    obtain ⟨_, _, c1, c2, c3, c4, beq⟩ :=
      d8_cell_ne_self nrows ncols d8 b (hb256 b hbm.1) hneb
    have hdr : DRval (d8.getD a 0) = DRval (d8.getD b 0) := congrArg Prod.fst hf
    have hdc : DCval (d8.getD a 0) = DCval (d8.getD b 0) := congrArg Prod.snd hf
    rw [hta] at aeq
    rw [htb] at beq
    have hca : (((a % ncols : Nat) : Int) + DCval (d8.getD a 0)).toNat < ncols := by omega
    have hcb : (((b % ncols : Nat) : Int) + DCval (d8.getD b 0)).toNat < ncols := by omega
    have hdiva := div_mod_pack ((((a / ncols : Nat) : Int) + DRval (d8.getD a 0)).toNat)
      ((((a % ncols : Nat) : Int) + DCval (d8.getD a 0)).toNat) ncols hca
    have hdivb := div_mod_pack ((((b / ncols : Nat) : Int) + DRval (d8.getD b 0)).toNat)
      ((((b % ncols : Nat) : Int) + DCval (d8.getD b 0)).toNat) ncols hcb
    rw [← aeq] at hdiva
    rw [← beq] at hdivb
    have hdivab : a / ncols = b / ncols := by
      have e1 := hdiva.1
      have e2 := hdivb.1
      rw [e2] at e1
      omega
    have hmodab : a % ncols = b % ncols := by
      have e1 := hdiva.2
      have e2 := hdivb.2
      rw [e2] at e1
      omega
    have hea : a = ncols * (a / ncols) + a % ncols := (Nat.div_add_mod a ncols).symm
    rw [hdivab, hmodab] at hea
    rw [hea, Nat.div_add_mod]


theorem length_filter_le_of_imp_mem (l : List Nat) (p q : Nat → Bool)
    (h : ∀ x ∈ l, p x = true → q x = true) :
    (l.filter p).length ≤ (l.filter q).length := by
  induction l with
  | nil => simp
  | cons a l2 ih =>
    have ih2 := ih (fun x hx => h x (List.mem_cons_of_mem a hx))
    rcases Bool.eq_false_or_eq_true (p a) with hp | hp
    · rw [filter_cons_pos l2 hp, filter_cons_pos l2 (h a (by simp) hp)]
      simp only [List.length_cons]
      omega
    · rw [filter_cons_neg l2 hp]
      rcases Bool.eq_false_or_eq_true (q a) with hq | hq
      · rw [filter_cons_pos l2 hq]
        simp only [List.length_cons]
        omega
      · rw [filter_cons_neg l2 hq]
        exact ih2

theorem pack_lt (r2 c2 nrows ncols : Nat) (hr : r2 < nrows) (hc : c2 < ncols) :
    r2 * ncols + c2 < nrows * ncols := by
  have h5 : (r2 + 1) * ncols = r2 * ncols + ncols := by ring
  have h6 : (r2 + 1) * ncols ≤ nrows * ncols := Nat.mul_le_mul_right _ (by omega)
  omega

theorem d8_cell_lt (nrows ncols : Nat) (d8 : List Nat) (i : Nat)
    (hb256 : d8.getD i 0 < 256) (hi : i < nrows * ncols) :
    d8_cell nrows ncols d8 i < nrows * ncols := by
  by_cases hne : d8_cell nrows ncols d8 i = i
  · rw [hne]
    exact hi
  · obtain ⟨_, _, b1, b2, b3, b4, heq⟩ := d8_cell_ne_self nrows ncols d8 i hb256 hne
    rw [heq]
    exact pack_lt _ _ _ _ (by omega) (by omega)

theorem from_array_mask_of_ne (nrows ncols : Nat) (d8 : List Nat) (i : Nat)
    (hi : i < nrows * ncols)
    (hne : (d8_from_array nrows ncols d8).getD i 0 ≠ i) :
    (FlwdirRaster.from_array nrows ncols d8).valid_mask i = true := by
  rw [from_array_valid_mask_eq nrows ncols d8 i hi]
  simp only [Bool.or_eq_true, decide_eq_true_eq, beq_iff_eq]
  exact Or.inl hne

/-- C7: for a FlwdirRaster built from a D8 grid, the sum of all entries
of the upstream-count array equals the number of cells whose downstream
index differs from their own index. -/
theorem upstream_count_sum (nrows ncols : Nat) (d8 : List Nat)
    (hb : ∀ v ∈ d8, v < 256) (hlen : d8.length = nrows * ncols) :
    Finset.sum (Finset.range (nrows * ncols))
      (FlwdirRaster.from_array nrows ncols d8).upstream_counts =
    (((List.range (nrows * ncols)).filter
      (fun i => !((FlwdirRaster.from_array nrows ncols d8).idxs_ds.getD i 0 == i))).length : Int) := by
  have hb256 : ∀ i, i < nrows * ncols → d8.getD i 0 < 256 := by
    intro i hi
    have h2 : i < d8.length := by omega
    rw [List.getD_eq_getElem d8 0 h2]
    exact hb _ (List.getElem_mem h2)
  have hlen2 : (d8_from_array nrows ncols d8).length = nrows * ncols :=
    d8_from_array_length nrows ncols d8
  have hcell_lt : ∀ i, i < nrows * ncols →
      (d8_from_array nrows ncols d8).getD i 0 < nrows * ncols := by
    intro i hi
    rw [d8_from_array_getD nrows ncols d8 i hi]
    exact d8_cell_lt nrows ncols d8 i (hb256 i hi) hi
  have hmask := (FlwdirRaster.from_array nrows ncols d8).valid_mask
  have hbound : ∀ t, (0 : Int) ≤ (fun _ => (0 : Int)) t ∧ (fun _ => (0 : Int)) t +
      (((List.range (d8_from_array nrows ncols d8).length).filter
        (fun i => (d8_from_array nrows ncols d8).getD i 0 == t && !(i == t) &&
        decide ((d8_from_array nrows ncols d8).getD i 0 <
          (d8_from_array nrows ncols d8).length) &&
        (FlwdirRaster.from_array nrows ncols d8).valid_mask i)).length : Int) ≤ 127 := by
    intro t
    refine ⟨le_refl 0, ?_⟩
    have hle := length_filter_le_of_imp_mem (List.range (d8_from_array nrows ncols d8).length)
      (fun i => (d8_from_array nrows ncols d8).getD i 0 == t && !(i == t) &&
        decide ((d8_from_array nrows ncols d8).getD i 0 <
          (d8_from_array nrows ncols d8).length) &&
        (FlwdirRaster.from_array nrows ncols d8).valid_mask i)
      (fun i => d8_cell nrows ncols d8 i == t && !(i == t))
      (by
        intro x hx hp
        rw [List.mem_range, hlen2] at hx
        simp only [Bool.and_eq_true] at hp
        show (d8_cell nrows ncols d8 x == t && !(x == t)) = true
        rw [← d8_from_array_getD nrows ncols d8 x hx]
        simp only [Bool.and_eq_true]
        exact ⟨hp.1.1.1, hp.1.1.2⟩)
    rw [hlen2] at hle
    have h8 := fanin_le_8 nrows ncols d8 hb hlen t
    have : ((List.range (nrows * ncols)).filter
        (fun i => d8_cell nrows ncols d8 i == t && !(i == t))).length ≤ 8 := h8
    rw [hlen2]
    push_cast
    omega
  have hsum := ucount_sum_fold (d8_from_array nrows ncols d8)
    (FlwdirRaster.from_array nrows ncols d8).valid_mask
    (List.range (d8_from_array nrows ncols d8).length) (fun _ => 0) hbound
  have huc : (FlwdirRaster.from_array nrows ncols d8).upstream_counts =
      (List.range (d8_from_array nrows ncols d8).length).foldl
        (fun nup idx0 =>
          let idxDs := (d8_from_array nrows ncols d8).getD idx0 0
          if idxDs ≠ idx0 ∧ idxDs < (d8_from_array nrows ncols d8).length ∧
              (FlwdirRaster.from_array nrows ncols d8).valid_mask idx0 = true then
            Function.update nup idxDs (i8wrap (nup idxDs + 1))
          else nup) (fun _ => 0) := rfl
  rw [hlen2] at hsum
  have hds : (FlwdirRaster.from_array nrows ncols d8).idxs_ds
      = d8_from_array nrows ncols d8 := rfl
  rw [huc, hlen2, hsum, Finset.sum_const_zero, zero_add, hds]
  have hcongr : (List.range (nrows * ncols)).filter
      (fun i => !((d8_from_array nrows ncols d8).getD i 0 == i) &&
        decide ((d8_from_array nrows ncols d8).getD i 0 < nrows * ncols) &&
        (FlwdirRaster.from_array nrows ncols d8).valid_mask i) =
      (List.range (nrows * ncols)).filter
      (fun i => !((d8_from_array nrows ncols d8).getD i 0 == i)) := by
    apply List.filter_congr
    intro x hx
    rw [List.mem_range] at hx
    by_cases he : (d8_from_array nrows ncols d8).getD x 0 = x
    · have h1 : ((d8_from_array nrows ncols d8).getD x 0 == x) = true :=
        beq_iff_eq.mpr he
      rw [h1]
      simp
    · have h1 : ((d8_from_array nrows ncols d8).getD x 0 == x) = false :=
        beq_eq_false_iff_ne.mpr he
      have h2 : decide ((d8_from_array nrows ncols d8).getD x 0 < nrows * ncols) = true :=
        decide_eq_true (hcell_lt x hx)
      have h3 : (FlwdirRaster.from_array nrows ncols d8).valid_mask x = true :=
        from_array_mask_of_ne nrows ncols d8 x hx he
      rw [h1, h2, h3]
      rfl
  rw [hcongr]


/-- Witness for C7 on the 2x2 scenario grid (three cells drain into the
pit; sum of counts = 3 = number of non-self-loop cells). -/
theorem upstream_count_sum_witness :
    Finset.sum (Finset.range (2 * 2))
      (FlwdirRaster.from_array 2 2 [2, 4, 1, 0]).upstream_counts =
    (((List.range (2 * 2)).filter
      (fun i => !((FlwdirRaster.from_array 2 2 [2, 4, 1, 0]).idxs_ds.getD i 0 == i))).length : Int) :=
  upstream_count_sum 2 2 [2, 4, 1, 0] (by decide) (by decide)


/-! ## C5: the topological sequence -/

theorem i8chain_shift (x : Int) : ∀ k, i8chain (i8wrap (x + 1)) k = i8wrap (i8chain x k + 1)
  | 0 => rfl
  | k + 1 => by
    show i8wrap (i8chain (i8wrap (x + 1)) k + 1) = _
    rw [i8chain_shift x k]
    rfl

theorem i8chain_id (k : Nat) (hk : k ≤ 127) : i8chain 0 k = k := by
  induction k with
  | zero => rfl
  | succ k2 ih =>
    show i8wrap (i8chain 0 k2 + 1) = _
    rw [ih (by omega), i8wrap_id _ (by omega) (by omega)]
    push_cast
    ring

theorem ucount_chain (idxs : List Nat) :
    ∀ (L : List Nat) (nup : Nat → Int) (t : Nat),
    (L.foldl (fun nup idx0 =>
        let idxDs := idxs.getD idx0 0
        if idxDs ≠ idx0 ∧ idxDs < idxs.length then
          Function.update nup idxDs (i8wrap (nup idxDs + 1))
        else nup) nup) t =
    i8chain (nup t) ((L.filter (fun i => idxs.getD i 0 == t && !(i == t) &&
      decide (idxs.getD i 0 < idxs.length))).length) := by
  intro L
  induction L with
  | nil =>
    intro nup t
    rfl
  | cons a L2 ih =>
    intro nup t
    have hfoldstep : ∀ (g : Nat → Int),
        (a :: L2).foldl (fun nup idx0 =>
          let idxDs := idxs.getD idx0 0
          if idxDs ≠ idx0 ∧ idxDs < idxs.length then
            Function.update nup idxDs (i8wrap (nup idxDs + 1))
          else nup) g =
        L2.foldl (fun nup idx0 =>
          let idxDs := idxs.getD idx0 0
          if idxDs ≠ idx0 ∧ idxDs < idxs.length then
            Function.update nup idxDs (i8wrap (nup idxDs + 1))
          else nup)
          (let idxDs := idxs.getD a 0
           if idxDs ≠ a ∧ idxDs < idxs.length then
             Function.update g idxDs (i8wrap (g idxDs + 1))
           else g) := fun g => rfl
    by_cases hpush : idxs.getD a 0 ≠ a ∧ idxs.getD a 0 < idxs.length
    · obtain ⟨hp1, hp2⟩ := hpush
      have hstep_eq : (let idxDs := idxs.getD a 0
           if idxDs ≠ a ∧ idxDs < idxs.length then
             Function.update nup idxDs (i8wrap (nup idxDs + 1))
           else nup) = Function.update nup (idxs.getD a 0)
             (i8wrap (nup (idxs.getD a 0) + 1)) := by
        simp only []
        rw [if_pos ⟨hp1, hp2⟩]
      rw [hfoldstep nup, hstep_eq, ih]
      by_cases ht : t = idxs.getD a 0
      · have hupd : Function.update nup (idxs.getD a 0)
            (i8wrap (nup (idxs.getD a 0) + 1)) t = i8wrap (nup t + 1) := by
          rw [ht]
          exact Function.update_same _ _ nup
        rw [hupd]
        have hmemA : (idxs.getD a 0 == t && !(a == t) &&
            decide (idxs.getD a 0 < idxs.length)) = true := by
          simp only [Bool.and_eq_true, beq_iff_eq, Bool.not_eq_true',
            beq_eq_false_iff_ne, decide_eq_true_eq]
          exact ⟨⟨ht.symm, fun h => hp1 (by omega)⟩, hp2⟩
        rw [filter_cons_pos L2 hmemA, List.length_cons, i8chain_shift]
        rfl
      · have hupd : Function.update nup (idxs.getD a 0)
            (i8wrap (nup (idxs.getD a 0) + 1)) t = nup t :=
          Function.update_noteq ht _ nup
        rw [hupd]
        have hmemA : (idxs.getD a 0 == t && !(a == t) &&
            decide (idxs.getD a 0 < idxs.length)) = false := by
          have hA : (idxs.getD a 0 == t) = false :=
            beq_eq_false_iff_ne.mpr (fun h => ht h.symm)
          rw [hA]
          simp
        rw [filter_cons_neg L2 hmemA]
    · have hstep_eq : (let idxDs := idxs.getD a 0
           if idxDs ≠ a ∧ idxDs < idxs.length then
             Function.update nup idxDs (i8wrap (nup idxDs + 1))
           else nup) = nup := by
        simp only []
        rw [if_neg hpush]
      rw [hfoldstep nup, hstep_eq, ih]
      have hmemA : (idxs.getD a 0 == t && !(a == t) &&
          decide (idxs.getD a 0 < idxs.length)) = false := by
        by_cases h1 : idxs.getD a 0 = a
        · by_cases h2 : a = t
          · have hB : (!(a == t)) = false := by
              rw [beq_iff_eq.mpr h2]
              rfl
            rw [hB]
            simp
          · have hA : (idxs.getD a 0 == t) = false := by
              rw [beq_eq_false_iff_ne]
              rw [h1]
              exact h2
            rw [hA]
            simp
        · have h2 : ¬ idxs.getD a 0 < idxs.length := by tauto
          have hC : decide (idxs.getD a 0 < idxs.length) = false := decide_eq_false h2
          rw [hC]
          simp
      rw [filter_cons_neg L2 hmemA]

theorem upstream_count_nomask_eq (idxs : List Nat) (t : Nat) :
    upstream_count idxs none t =
    i8chain 0 (((List.range idxs.length).filter
      (fun i => idxs.getD i 0 == t && !(i == t) &&
        decide (idxs.getD i 0 < idxs.length))).length) :=
  ucount_chain idxs (List.range idxs.length) (fun _ => 0) t


set_option maxRecDepth 10000

theorem star_getD : ∀ i, (0 :: List.replicate 128 (0:Nat)).getD i 0 = 0 := by
  intro i
  cases i with
  | zero => rfl
  | succ j =>
    show (List.replicate 128 (0:Nat)).getD j 0 = 0
    rw [List.getD_eq_getElem?_getD, List.getElem?_replicate]
    by_cases h : j < 128
    · simp [h]
    · simp [h]

theorem star_len : (0 :: List.replicate 128 (0:Nat)).length = 129 := by
  simp

theorem star_count0 :
    ((List.range (0 :: List.replicate 128 (0:Nat)).length).filter
      (fun i => (0 :: List.replicate 128 (0:Nat)).getD i 0 == 0 && !(i == 0) &&
        decide ((0 :: List.replicate 128 (0:Nat)).getD i 0 <
          (0 :: List.replicate 128 (0:Nat)).length))).length = 128 := by
  decide

theorem star_nup0 : upstream_count (0 :: List.replicate 128 (0:Nat)) none 0 = -128 := by
  rw [upstream_count_nomask_eq, star_count0]
  show i8wrap (i8chain 0 127 + 1) = -128
  rw [i8chain_id 127 (by omega)]
  decide

theorem star_nupt (t : Nat) (ht : t ≠ 0) :
    upstream_count (0 :: List.replicate 128 (0:Nat)) none t = 0 := by
  rw [upstream_count_nomask_eq]
  have hnil : ((List.range (0 :: List.replicate 128 (0:Nat)).length).filter
      (fun i => (0 :: List.replicate 128 (0:Nat)).getD i 0 == t && !(i == t) &&
        decide ((0 :: List.replicate 128 (0:Nat)).getD i 0 <
          (0 :: List.replicate 128 (0:Nat)).length))) = [] := by
    rw [List.filter_eq_nil_iff]
    intro i _
    rw [star_getD i]
    have hA : ((0:Nat) == t) = false := beq_eq_false_iff_ne.mpr (fun h => ht h.symm)
    rw [hA]
    simp
  rw [hnil]
  rfl

theorem star_map :
    (List.range (0 :: List.replicate 128 (0:Nat)).length).map
      (upstream_count (0 :: List.replicate 128 (0:Nat)) none) =
    (List.range 129).map (fun t => if t = 0 then (-128 : Int) else 0) := by
  rw [star_len]
  apply List.map_congr_left
  intro t _
  by_cases h : t = 0
  · rw [h, if_pos rfl]
    exact star_nup0
  · rw [if_neg h]
    exact star_nupt t h

theorem star_matrix :
    upstream_matrix (0 :: List.replicate 128 (0:Nat)) = ((fun _ => -1), 1) := by
  unfold upstream_matrix
  simp only []
  rw [star_map]
  rw [show asUsize ((((List.range 129).map
    (fun t => if t = 0 then (-128 : Int) else 0)).max?).getD 0) = 0 from by decide]
  rw [if_pos rfl]

theorem star_pits : pit_indices (0 :: List.replicate 128 (0:Nat)) = [0] := by
  decide

theorem star_seq :
    idxs_seq (0 :: List.replicate 128 (0:Nat))
      (pit_indices (0 :: List.replicate 128 (0:Nat))) = [0] := by
  unfold idxs_seq
  simp only []
  rw [star_pits, star_matrix, star_len]
  decide


theorem star_cast_len :
    ((0 :: List.replicate 128 (0:Nat)).map toI32).length = 129 := by
  rw [List.length_map]
  exact star_len

theorem star_cast_getD (c : Nat) (hc : c < 129) :
    ((0 :: List.replicate 128 (0:Nat)).map toI32).getD c 0 = 0 := by
  have hlen : c < ((0 :: List.replicate 128 (0:Nat)).map toI32).length := by
    rw [star_cast_len]
    exact hc
  have hlen2 : c < (0 :: List.replicate 128 (0:Nat)).length := by
    rw [star_len]
    exact hc
  rw [List.getD_eq_getElem _ _ hlen, List.getElem_map]
  rw [← List.getD_eq_getElem _ (0:Nat) hlen2, star_getD]
  decide

theorem star_reach (c : Nat) (hc : c < 129) :
    Reaches ((0 :: List.replicate 128 (0:Nat)).map toI32) c := by
  have h0 : Reaches ((0 :: List.replicate 128 (0:Nat)).map toI32) 0 := by
    apply Reaches.pit 0 (by rw [star_cast_len]; omega)
    rw [star_cast_getD 0 (by omega)]
    decide
  apply Reaches.step c (by rw [star_cast_len]; exact hc)
  have hd : dstep ((0 :: List.replicate 128 (0:Nat)).map toI32) c = 0 := by
    rw [dstep, star_cast_getD c hc]
    decide
  rw [hd]
  exact h0

theorem star_rank_count :
    ((List.range 129).filter (fun c =>
      decide (0 ≤ (rank ((0 :: List.replicate 128 (0:Nat)).map toI32) []).1 c))).length
      = 129 := by
  rw [List.filter_eq_self.mpr]
  · simp
  · intro c hcm
    rw [List.mem_range] at hcm
    apply decide_eq_true
    refine (rank_nonneg_iff ((0 :: List.replicate 128 (0:Nat)).map toI32)
      (by rw [star_cast_len]; omega) [] c (by rw [star_cast_len]; exact hcm)).mpr
      (star_reach c hcm)

/-- C5 (counterexample to the claim as stated): the 129-cell star in
which cells 1..128 all drain into the pit 0 satisfies the claim's
hypothesis (every entry is the cell itself or in range), but the i8
upstream counter of cell 0 wraps to -128 after 128 increments, the
maximum fan-in computes as 0, the upstream matrix degenerates to the
all-MV table, and idxs_seq returns just the pit list [0] — length 1 —
while all 129 cells have non-negative rank. -/
theorem idxs_seq_overflow_cx :
    (∀ c, c < 129 → ((0 :: List.replicate 128 (0:Nat))).getD c 0 = c ∨
      ((0 :: List.replicate 128 (0:Nat))).getD c 0 < 129) ∧
    idxs_seq (0 :: List.replicate 128 (0:Nat))
      (pit_indices (0 :: List.replicate 128 (0:Nat))) = [0] ∧
    ((List.range 129).filter (fun c =>
      decide (0 ≤ (rank ((0 :: List.replicate 128 (0:Nat)).map toI32) []).1 c))).length
      = 129 ∧
    ([0] : List Nat).length ≠ 129 := by
  refine ⟨?_, star_seq, star_rank_count, by decide⟩
  intro c _
  right
  rw [star_getD]
  omega


/-! ## C5 (amended): correctness of the topological sequence under the fan-in bound -/

/-- Every element of an Int list is bounded by the default-0 read of its
max?, and that value is an element unless the list is empty. -/
theorem max_getD_spec (l : List Int) :
    (∀ x ∈ l, x ≤ (l.max?).getD 0) ∧ (l = [] ∨ (l.max?).getD 0 ∈ l) := by
  rw [List.getD_max?_eq_unbot'_maximum]
  cases hy : l.maximum with
  | bot =>
    have hl : l = [] := List.maximum_eq_bot.mp hy
    subst hl
    exact ⟨fun x hx => absurd hx (List.not_mem_nil x), Or.inl rfl⟩
  | coe y =>
    rw [List.maximum_eq_coe_iff] at hy
    constructor
    · intro x hx
      rw [WithBot.unbot'_coe]
      exact hy.2 x hx
    · right
      rw [WithBot.unbot'_coe]
      exact hy.1

/-- Reading a position below the length with getD is membership. -/
theorem getD_mem_of_lt (l : List Nat) (p : Nat) (h : p < l.length) :
    l.getD p 0 ∈ l := by
  rw [List.getD_eq_getElem l 0 h]
  exact List.getElem_mem h

/-- Every member sits at some position readable with getD. -/
theorem mem_getD_pos (l : List Nat) (x : Nat) (h : x ∈ l) :
    ∃ p, p < l.length ∧ l.getD p 0 = x := by
  obtain ⟨i, hi, he⟩ := List.getElem_of_mem h
  refine ⟨i, hi, ?_⟩
  rw [List.getD_eq_getElem l 0 hi]
  exact he

/-- On a duplicate-free list, equal getD reads below the length force
equal positions. -/
theorem nodup_getD_inj (l : List Nat) (hnd : l.Nodup) (p q : Nat)
    (hp : p < l.length) (hq : q < l.length) (h : l.getD p 0 = l.getD q 0) :
    p = q := by
  rw [List.getD_eq_getElem l 0 hp, List.getD_eq_getElem l 0 hq] at h
  exact hnd.getElem_inj_iff.mp h

/-- Contributor lists repeat no cell. -/
theorem contributors_nodup (idxs : List Nat) (t : Nat) :
    (contributors idxs t).Nodup :=
  List.Nodup.filter _ (List.nodup_range _)

/-- Membership in a contributor list unfolded. -/
theorem contributors_mem (idxs : List Nat) (t : Nat) (x : Nat) :
    x ∈ contributors idxs t ↔
    x < idxs.length ∧ idxs.getD x 0 = t ∧ x ≠ t := by
  unfold contributors
  rw [List.mem_filter, List.mem_range]
  simp only [Bool.and_eq_true, beq_iff_eq, Bool.not_eq_true', beq_eq_false_iff_ne]

/-- For an in-range target, the range conjunct of contribP is implied
and the filtered scan is precisely the contributor list. -/
theorem filter_contribP_eq (idxs : List Nat) (t : Nat) (ht : t < idxs.length) :
    (List.range idxs.length).filter (contribP idxs t) = contributors idxs t := by
  unfold contributors
  apply List.filter_congr
  intro x _
  unfold contribP
  by_cases h1 : idxs.getD x 0 = t
  · have hd : decide (idxs.getD x 0 < idxs.length) = true := by
      rw [h1]
      exact decide_eq_true ht
    rw [hd, Bool.and_true]
  · have hb : (idxs.getD x 0 == t) = false := beq_eq_false_iff_ne.mpr h1
    rw [hb, Bool.false_and, Bool.false_and]

/-- With at most 127 contributors, the wrapping i8 counter of
upstream_count lands exactly on the contributor count. -/
theorem upstream_count_eq_contributors (idxs : List Nat) (t : Nat)
    (ht : t < idxs.length) (hfan : (contributors idxs t).length ≤ 127) :
    upstream_count idxs none t = ((contributors idxs t).length : Int) := by
  rw [upstream_count_nomask_eq]
  have he : (List.range idxs.length).filter
      (fun i => idxs.getD i 0 == t && !(i == t) &&
        decide (idxs.getD i 0 < idxs.length)) =
      (List.range idxs.length).filter (contribP idxs t) := rfl
  rw [he, filter_contribP_eq idxs t ht, i8chain_id _ hfan]

/-- The usize cast of the maximum upstream counter is a plain natural
number d bounding every contributor count, itself at most 127, when all
fan-ins stay within the i8 range. -/
theorem maxfan_bound (idxs : List Nat)
    (hfan : ∀ t, t < idxs.length → (contributors idxs t).length ≤ 127) :
    ∃ dN : Nat, dN ≤ 127 ∧
      asUsize ((((List.range idxs.length).map (upstream_count idxs none)).max?).getD 0) = dN ∧
      ∀ t, t < idxs.length → (contributors idxs t).length ≤ dN := by
  obtain ⟨hle, hmem⟩ := max_getD_spec
    ((List.range idxs.length).map (upstream_count idxs none))
  rcases hmem with hnil | hmemM
  · have hn0 : idxs.length = 0 := by
      have h2 := congrArg List.length hnil
      simpa using h2
    refine ⟨0, by omega, ?_, ?_⟩
    · rw [hnil]
      decide
    · intro t ht
      omega
  · obtain ⟨t0, ht0, hMt0⟩ := List.mem_map.mp hmemM
    have ht0n : t0 < idxs.length := List.mem_range.mp ht0
    have hv := upstream_count_eq_contributors idxs t0 ht0n (hfan t0 ht0n)
    have hMeq : (((List.range idxs.length).map (upstream_count idxs none)).max?).getD 0 =
        ((contributors idxs t0).length : Int) := by
      rw [← hMt0, hv]
    refine ⟨(contributors idxs t0).length, hfan t0 ht0n, ?_, ?_⟩
    · rw [hMeq]
      exact asUsize_ofNat _ (by have := hfan t0 ht0n; omega)
    · intro t ht
      have hvt := upstream_count_eq_contributors idxs t ht (hfan t ht)
      have hle_t := hle _ (List.mem_map.mpr ⟨t, List.mem_range.mpr ht, rfl⟩)
      rw [hvt, hMeq] at hle_t
      exact_mod_cast hle_t

/-- upstream_matrix unfolded through its let bindings, with the fold
body named matStep. -/
theorem upstream_matrix_eq (idxs : List Nat) :
    upstream_matrix idxs =
    (if asUsize ((((List.range idxs.length).map (upstream_count idxs none)).max?).getD 0) = 0
     then ((fun _ => -1), 1)
     else (((List.range idxs.length).foldl
         (matStep idxs
           (asUsize ((((List.range idxs.length).map (upstream_count idxs none)).max?).getD 0)))
         ((fun _ => -1), (fun _ => 0))).1,
       asUsize ((((List.range idxs.length).map (upstream_count idxs none)).max?).getD 0))) := rfl


/-- The upstream_matrix fill loop, characterized: starting from a state
whose rows are given by a row function (counters matching row lengths,
matrix entries matching row contents padded with MV) with enough free
width for the remaining contributors, processing the remaining scan list
appends each scanned contributor to its target row. -/
theorem matFold_spec (idxs : List Nat) (d : Nat) :
    ∀ (L : List Nat) (rows : Nat → List Nat) (mat : Nat × Nat → Int) (cnt : Nat → Nat),
    (∀ t, cnt t = (rows t).length) →
    (∀ t, (rows t).length + (L.filter (contribP idxs t)).length ≤ d) →
    (∀ t k, mat (t, k) = if k < (rows t).length then toI64 ((rows t).getD k 0) else -1) →
    ∀ t k, (L.foldl (matStep idxs d) (mat, cnt)).1 (t, k) =
      if k < (rows t ++ L.filter (contribP idxs t)).length
      then toI64 ((rows t ++ L.filter (contribP idxs t)).getD k 0)
      else -1 := by
  intro L
  induction L with
  | nil =>
    intro rows mat cnt hcnt hbound hmat t k
    simp only [List.foldl_nil, List.filter_nil, List.append_nil]
    exact hmat t k
  | cons a L2 ih =>
    intro rows mat cnt hcnt hbound hmat t k
    rw [List.foldl_cons]
    by_cases hcond : idxs.getD a 0 ≠ a ∧ idxs.getD a 0 < idxs.length
    · have hPa_pos : contribP idxs (idxs.getD a 0) a = true := by
        unfold contribP
        simp only [Bool.and_eq_true, beq_iff_eq, Bool.not_eq_true',
          beq_eq_false_iff_ne, decide_eq_true_eq]
        exact ⟨⟨trivial, fun h => hcond.1 h.symm⟩, hcond.2⟩
      have hPa_neg : ∀ t2, t2 ≠ idxs.getD a 0 → contribP idxs t2 a = false := by
        intro t2 ht2
        unfold contribP
        have hb : (idxs.getD a 0 == t2) = false :=
          beq_eq_false_iff_ne.mpr (fun h => ht2 h.symm)
        rw [hb, Bool.false_and, Bool.false_and]
      have hbA := hbound (idxs.getD a 0)
      rw [filter_cons_pos L2 hPa_pos, List.length_cons] at hbA
      have hguard0 : cnt (idxs.getD a 0) < d := by
        rw [hcnt]
        omega
      have hstep : matStep idxs d (mat, cnt) a =
          (Function.update mat (idxs.getD a 0, cnt (idxs.getD a 0)) (toI64 a),
           Function.update cnt (idxs.getD a 0) (cnt (idxs.getD a 0) + 1)) := by
        show (if idxs.getD a 0 ≠ a ∧ idxs.getD a 0 < idxs.length then
            if cnt (idxs.getD a 0) < d then
              (Function.update mat (idxs.getD a 0, cnt (idxs.getD a 0)) (toI64 a),
               Function.update cnt (idxs.getD a 0) (cnt (idxs.getD a 0) + 1))
            else (mat, cnt)
          else (mat, cnt)) = _
        rw [if_pos hcond, if_pos hguard0]
      rw [hcnt (idxs.getD a 0)] at hstep
      rw [hstep]
      have hcnt2 : ∀ t2,
          Function.update cnt (idxs.getD a 0) ((rows (idxs.getD a 0)).length + 1) t2 =
          (Function.update rows (idxs.getD a 0) (rows (idxs.getD a 0) ++ [a]) t2).length := by
        intro t2
        by_cases h : t2 = idxs.getD a 0
        · subst h
          rw [Function.update_same, Function.update_same, List.length_append]
          simp only [List.length_singleton]
        · rw [Function.update_noteq h, Function.update_noteq h]
          exact hcnt t2
      have hbound2 : ∀ t2,
          (Function.update rows (idxs.getD a 0) (rows (idxs.getD a 0) ++ [a]) t2).length +
          (L2.filter (contribP idxs t2)).length ≤ d := by
        intro t2
        by_cases h : t2 = idxs.getD a 0
        · subst h
          rw [Function.update_same, List.length_append]
          simp only [List.length_singleton]
          omega
        · rw [Function.update_noteq h]
          have hb2 := hbound t2
          rw [filter_cons_neg L2 (hPa_neg t2 h)] at hb2
          exact hb2
      have hmat2 : ∀ t2 k2,
          Function.update mat (idxs.getD a 0, (rows (idxs.getD a 0)).length) (toI64 a) (t2, k2) =
          if k2 < (Function.update rows (idxs.getD a 0) (rows (idxs.getD a 0) ++ [a]) t2).length
          then toI64 ((Function.update rows (idxs.getD a 0) (rows (idxs.getD a 0) ++ [a]) t2).getD k2 0)
          else -1 := by
        intro t2 k2
        by_cases hp : (t2, k2) = (idxs.getD a 0, (rows (idxs.getD a 0)).length)
        · have he1 : t2 = idxs.getD a 0 := congrArg Prod.fst hp
          have he2 : k2 = (rows (idxs.getD a 0)).length := congrArg Prod.snd hp
          subst he1
          subst he2
          rw [Function.update_same, Function.update_same]
          rw [if_pos (by rw [List.length_append]; simp only [List.length_singleton]; omega)]
          rw [List.getD_append_right (rows (idxs.getD a 0)) [a] 0
            (rows (idxs.getD a 0)).length (Nat.le_refl _)]
          simp only [Nat.sub_self]
          rfl
        · rw [Function.update_noteq hp, hmat t2 k2]
          by_cases ht : t2 = idxs.getD a 0
          · subst ht
            have hk2 : k2 ≠ (rows (idxs.getD a 0)).length := fun h => hp (by rw [h])
            rw [Function.update_same]
            by_cases hk : k2 < (rows (idxs.getD a 0)).length
            · rw [if_pos hk,
                if_pos (by rw [List.length_append]; simp only [List.length_singleton]; omega)]
              rw [List.getD_append (rows (idxs.getD a 0)) [a] 0 k2 hk]
            · rw [if_neg hk,
                if_neg (by rw [List.length_append]; simp only [List.length_singleton]; omega)]
          · rw [Function.update_noteq ht]
      have hres := ih (Function.update rows (idxs.getD a 0) (rows (idxs.getD a 0) ++ [a]))
        (Function.update mat (idxs.getD a 0, (rows (idxs.getD a 0)).length) (toI64 a))
        (Function.update cnt (idxs.getD a 0) ((rows (idxs.getD a 0)).length + 1))
        hcnt2 hbound2 hmat2 t k
      rw [hres]
      by_cases ht : t = idxs.getD a 0
      · subst ht
        rw [Function.update_same, filter_cons_pos L2 hPa_pos, ← List.append_cons]
      · rw [Function.update_noteq ht, filter_cons_neg L2 (hPa_neg t ht)]
    · have hstep : matStep idxs d (mat, cnt) a = (mat, cnt) := by
        show (if idxs.getD a 0 ≠ a ∧ idxs.getD a 0 < idxs.length then
            if cnt (idxs.getD a 0) < d then
              (Function.update mat (idxs.getD a 0, cnt (idxs.getD a 0)) (toI64 a),
               Function.update cnt (idxs.getD a 0) (cnt (idxs.getD a 0) + 1))
            else (mat, cnt)
          else (mat, cnt)) = (mat, cnt)
        rw [if_neg hcond]
      rw [hstep]
      have hPa_all : ∀ t2, contribP idxs t2 a = false := by
        intro t2
        unfold contribP
        by_cases h1 : idxs.getD a 0 = a
        · by_cases h2 : a = t2
          · have hb : (a == t2) = true := beq_iff_eq.mpr h2
            rw [hb]
            simp
          · have hb : (idxs.getD a 0 == t2) = false := by
              rw [beq_eq_false_iff_ne, h1]
              exact h2
            rw [hb, Bool.false_and, Bool.false_and]
        · have h2 : ¬ idxs.getD a 0 < idxs.length := fun hl => hcond ⟨h1, hl⟩
          have hb : decide (idxs.getD a 0 < idxs.length) = false := decide_eq_false h2
          rw [hb, Bool.and_false]
      have hbound2 : ∀ t2, (rows t2).length + (L2.filter (contribP idxs t2)).length ≤ d := by
        intro t2
        have hb2 := hbound t2
        rw [filter_cons_neg L2 (hPa_all t2)] at hb2
        exact hb2
      have hres := ih rows mat cnt hcnt hbound2 hmat t k
      rw [hres, filter_cons_neg L2 (hPa_all t)]

/-- The upstream matrix, row by row: when every fan-in stays within the
i8 range, row t of the table lists the contributors of t in scan order
followed by MV padding, and every contributor list fits the width. -/
theorem upstream_matrix_spec (idxs : List Nat)
    (hfan : ∀ t, t < idxs.length → (contributors idxs t).length ≤ 127) :
    ∀ t, t < idxs.length →
      (contributors idxs t).length ≤ (upstream_matrix idxs).2 ∧
      (∀ k, (upstream_matrix idxs).1 (t, k) =
        if k < (contributors idxs t).length
        then toI64 ((contributors idxs t).getD k 0) else -1) := by
  obtain ⟨dN, hd127, hdval, hdle⟩ := maxfan_bound idxs hfan
  intro t ht
  rw [upstream_matrix_eq, hdval]
  by_cases hd0 : dN = 0
  · rw [if_pos hd0]
    have hnil : contributors idxs t = [] := by
      have h1 := hdle t ht
      exact List.length_eq_zero.mp (by omega)
    constructor
    · show (contributors idxs t).length ≤ 1
      rw [hnil]
      decide
    · intro k
      rw [hnil]
      show (-1 : Int) = if k < ([] : List Nat).length then toI64 (([] : List Nat).getD k 0) else -1
      rw [if_neg (by simp)]
  · rw [if_neg hd0]
    have hb0 : ∀ t2, (([] : List Nat)).length +
        ((List.range idxs.length).filter (contribP idxs t2)).length ≤ dN := by
      intro t2
      simp only [List.length_nil, Nat.zero_add]
      by_cases h : t2 < idxs.length
      · rw [filter_contribP_eq idxs t2 h]
        exact hdle t2 h
      · have hz : (List.range idxs.length).filter (contribP idxs t2) = [] := by
          apply List.filter_eq_nil_iff.mpr
          intro x hx
          unfold contribP
          simp only [Bool.and_eq_true, beq_iff_eq, Bool.not_eq_true',
            beq_eq_false_iff_ne, decide_eq_true_eq, not_and]
          intro h1
          rw [h1.1]
          exact h
        rw [hz]
        simp
    have hfold := matFold_spec idxs dN (List.range idxs.length)
      (fun _ => []) (fun _ => -1) (fun _ => 0)
      (fun _ => rfl) hb0 (fun t2 k2 => by rw [if_neg (by simp)]) t
    constructor
    · show (contributors idxs t).length ≤ dN
      exact hdle t ht
    · intro k
      have h2 := hfold k
      rw [List.nil_append, filter_contribP_eq idxs t ht] at h2
      exact h2

/-- The row-scan loop of idxs_seq, characterized against a row list l:
starting at column k with enough remaining width, it appends the row
entries from position k on (cast back through the i64 round trip) under
the size guard, stopping at the MV terminator. -/
theorem pushRowAux_go (mat : Nat × Nat → Int) (t size : Nat) (l : List Nat)
    (hrow : ∀ k, mat (t, k) = if k < l.length then toI64 (l.getD k 0) else -1)
    (hsmall : ∀ x ∈ l, x < 2147483648) :
    ∀ (rem k : Nat) (seq : List Nat), l.length ≤ k + rem →
    pushRowAux mat t size k rem seq =
      (l.drop k).foldl (fun s x => if s.length < size then s ++ [x] else s) seq := by
  intro rem
  induction rem with
  | zero =>
    intro k seq hlen
    rw [List.drop_eq_nil_of_le (by omega)]
    rfl
  | succ rem2 ih =>
    intro k seq hlen
    show (if mat (t, k) = -1 then seq
      else pushRowAux mat t size (k + 1) rem2
        (if seq.length < size then seq ++ [asUsize (mat (t, k))] else seq)) = _
    by_cases hk : k < l.length
    · have hx_mem : l.getD k 0 ∈ l := getD_mem_of_lt l k hk
      have hxs := hsmall _ hx_mem
      have hv : mat (t, k) = ((l.getD k 0 : Nat) : Int) := by
        rw [hrow k, if_pos hk, toI64_small _ (by omega)]
      have hne : mat (t, k) ≠ -1 := by
        rw [hv]
        omega
      rw [if_neg hne]
      have hau : asUsize (mat (t, k)) = l.getD k 0 := by
        rw [hv]
        exact asUsize_ofNat _ (by omega)
      rw [hau, ih (k + 1) _ (by omega)]
      have hdrop : l.drop k = l.getD k 0 :: l.drop (k + 1) := by
        rw [List.getD_eq_getElem l 0 hk]
        exact List.drop_eq_getElem_cons hk
      rw [hdrop, List.foldl_cons]
    · have hv : mat (t, k) = -1 := by
        rw [hrow k, if_neg hk]
      rw [if_pos hv, List.drop_eq_nil_of_le (by omega)]
      rfl

/-- The size-guarded append loop never truncates while the accumulated
sequence stays duplicate-free with in-range members: it is a plain
append. -/
theorem append_guard_eq (size : Nat) :
    ∀ (l seq : List Nat), (seq ++ l).Nodup → (∀ x, x ∈ seq ++ l → x < size) →
    l.foldl (fun s x => if s.length < size then s ++ [x] else s) seq = seq ++ l := by
  intro l
  induction l with
  | nil =>
    intro seq _ _
    rw [List.foldl_nil, List.append_nil]
  | cons a l2 ih =>
    intro seq hnd hbd
    rw [List.foldl_cons]
    have hlen : (seq ++ a :: l2).length ≤ size :=
      nodup_bounded_length size _ hnd (fun x hx => hbd x hx)
    have hg : seq.length < size := by
      rw [List.length_append, List.length_cons] at hlen
      omega
    rw [if_pos hg]
    have hre : seq ++ a :: l2 = (seq ++ [a]) ++ l2 := List.append_cons seq a l2
    rw [hre] at hnd hbd
    rw [ih (seq ++ [a]) hnd hbd, ← hre]

/-- Seeding the sequence with a duplicate-free in-range pit list fills
it with exactly that list. -/
theorem initSeq_eq (pits : List Nat) (size : Nat) (hnd : pits.Nodup)
    (hbd : ∀ x ∈ pits, x < size) : initSeq pits size = pits := by
  unfold initSeq
  have h := append_guard_eq size pits [] (by simpa using hnd) (by simpa using hbd)
  simpa using h

/-- The pit list repeats no cell. -/
theorem pit_indices_nodup (idxs : List Nat) : (pit_indices idxs).Nodup :=
  List.Nodup.filter _ (List.nodup_range _)

/-- Membership in the pit list unfolded. -/
theorem pit_indices_mem (idxs : List Nat) (x : Nat) :
    x ∈ pit_indices idxs ↔ x < idxs.length ∧ idxs.getD x 0 = x := by
  unfold pit_indices
  rw [List.mem_filter, List.mem_range]
  simp only [beq_iff_eq]

/-- The pit list with cursor 0 satisfies the idxs_seq loop invariant. -/
theorem seqInv_init (idxs : List Nat) : SeqInv idxs (pit_indices idxs) 0 := by
  refine ⟨Nat.zero_le _, pit_indices_nodup idxs, ?_, ?_, ?_, ?_, ?_, ?_⟩
  · intro x hx
    exact ((pit_indices_mem idxs x).mp hx).1
  · intro j hj hne
    exact absurd ((pit_indices_mem idxs _).mp (getD_mem_of_lt _ j hj)).2 hne
  · intro x hx
    obtain ⟨h1, h2⟩ := (pit_indices_mem idxs x).mp hx
    exact ReachesN.pit x h1 h2
  · intro x hx
    exact Or.inl ((pit_indices_mem idxs x).mp hx).2
  · intro x hxn hxp
    exact (pit_indices_mem idxs x).mpr ⟨hxn, hxp⟩
  · intro p hp
    exact absurd hp (Nat.not_lt_zero p)

/-- Appending the contributors of the cell at the cursor preserves the
idxs_seq loop invariant with the cursor advanced. -/
theorem seqInv_step (idxs seq : List Nat) (i t : Nat)
    (inv : SeqInv idxs seq i) (hil : i < seq.length) (ht : seq.getD i 0 = t) :
    SeqInv idxs (seq ++ contributors idxs t) (i + 1) := by
  have htmem : t ∈ seq := by
    rw [← ht]
    exact getD_mem_of_lt seq i hil
  have hdisj : ∀ x ∈ contributors idxs t, x ∉ seq := by
    intro x hx hxseq
    obtain ⟨hxn, hxds, hxne⟩ := (contributors_mem idxs t x).mp hx
    rcases inv.dsin x hxseq with hpit | ⟨p, hpi, hpe⟩
    · exact hxne (by rw [← hxds]; exact hpit.symm)
    · have hpl : p < seq.length := by
        have h1 := inv.hi
        omega
      have hpeq : p = i := nodup_getD_inj seq inv.nodup p i hpl hil
        (by rw [hpe, hxds, ht])
      omega
  have hnodup2 : (seq ++ contributors idxs t).Nodup :=
    inv.nodup.append (contributors_nodup idxs t) (fun a ha hb => hdisj a hb ha)
  have hbd2 : ∀ x ∈ seq ++ contributors idxs t, x < idxs.length := by
    intro x hx
    rcases List.mem_append.mp hx with h | h
    · exact inv.mem_lt x h
    · exact ((contributors_mem idxs t x).mp h).1
  refine ⟨?_, hnodup2, hbd2, ?_, ?_, ?_, ?_, ?_⟩
  · rw [List.length_append]
    omega
  · intro j hj hnp
    rw [List.length_append] at hj
    by_cases hjl : j < seq.length
    · have he : (seq ++ contributors idxs t).getD j 0 = seq.getD j 0 :=
        List.getD_append seq (contributors idxs t) 0 j hjl
      rw [he] at hnp ⊢
      obtain ⟨p, hpj, hpe⟩ := inv.ds_earlier j hjl hnp
      refine ⟨p, hpj, ?_⟩
      rw [List.getD_append seq (contributors idxs t) 0 p (by omega)]
      exact hpe
    · have he : (seq ++ contributors idxs t).getD j 0 =
          (contributors idxs t).getD (j - seq.length) 0 :=
        List.getD_append_right seq (contributors idxs t) 0 j (by omega)
      have hmem : (contributors idxs t).getD (j - seq.length) 0 ∈ contributors idxs t :=
        getD_mem_of_lt _ _ (by omega)
      obtain ⟨hxn, hxds, hxne⟩ := (contributors_mem idxs t _).mp hmem
      refine ⟨i, by omega, ?_⟩
      rw [List.getD_append seq (contributors idxs t) 0 i hil, he, hxds]
      exact ht
  · intro x hx
    rcases List.mem_append.mp hx with h | h
    · exact inv.reach x h
    · obtain ⟨hxn, hxds, _⟩ := (contributors_mem idxs t x).mp h
      refine ReachesN.step x hxn ?_
      rw [hxds]
      exact inv.reach t htmem
  · intro x hx
    rcases List.mem_append.mp hx with h | h
    · rcases inv.dsin x h with h1 | ⟨p, hpi, hpe⟩
      · exact Or.inl h1
      · refine Or.inr ⟨p, by omega, ?_⟩
        rw [List.getD_append seq (contributors idxs t) 0 p
          (by have h1 := inv.hi; omega)]
        exact hpe
    · obtain ⟨hxn, hxds, _⟩ := (contributors_mem idxs t x).mp h
      refine Or.inr ⟨i, by omega, ?_⟩
      rw [List.getD_append seq (contributors idxs t) 0 i hil, hxds]
      exact ht
  · intro x hxn hxp
    exact List.mem_append.mpr (Or.inl (inv.pits_in x hxn hxp))
  · intro p hp y hy
    by_cases hpi : p < i
    · have hplen : p < seq.length := by
        have h1 := inv.hi
        omega
      rw [List.getD_append seq (contributors idxs t) 0 p hplen] at hy
      exact List.mem_append.mpr (Or.inl (inv.closed p hpi y hy))
    · have hpeq : p = i := by omega
      subst hpeq
      rw [List.getD_append seq (contributors idxs t) 0 p hil, ht] at hy
      exact List.mem_append.mpr (Or.inr hy)


/-- The idxs_seq cursor loop: run with enough fuel from an invariant
state, it terminates with the cursor at the filled length and the
invariant holding there (so the processed closure covers the whole
sequence). -/
theorem seqLoop_spec (idxs : List Nat) (mat : Nat × Nat → Int) (width : Nat)
    (hn : idxs.length ≤ 2147483648)
    (hmat : ∀ t, t < idxs.length →
      (contributors idxs t).length ≤ width ∧
      (∀ k, mat (t, k) = if k < (contributors idxs t).length
        then toI64 ((contributors idxs t).getD k 0) else -1)) :
    ∀ (fuel : Nat) (seq : List Nat) (i : Nat),
      SeqInv idxs seq i → idxs.length ≤ fuel + i →
      SeqInv idxs (seqLoop mat width idxs.length fuel seq i)
        (seqLoop mat width idxs.length fuel seq i).length := by
  intro fuel
  induction fuel with
  | zero =>
    intro seq i inv hfuel
    show SeqInv idxs seq seq.length
    have hlen : seq.length ≤ idxs.length :=
      nodup_bounded_length _ _ inv.nodup inv.mem_lt
    have h1 := inv.hi
    have hieq : i = seq.length := by omega
    exact hieq ▸ inv
  | succ fuel2 ih =>
    intro seq i inv hfuel
    by_cases hcond : i < seq.length ∧ i < idxs.length
    · have hstep : seqLoop mat width idxs.length (fuel2 + 1) seq i =
          seqLoop mat width idxs.length fuel2
            (pushRowAux mat (seq.getD i 0) idxs.length 0 width seq) (i + 1) := by
        show (if i < seq.length ∧ i < idxs.length then
            seqLoop mat width idxs.length fuel2
              (pushRowAux mat (seq.getD i 0) idxs.length 0 width seq) (i + 1)
          else seq) = _
        rw [if_pos hcond]
      have htlt : seq.getD i 0 < idxs.length :=
        inv.mem_lt _ (getD_mem_of_lt seq i hcond.1)
      have inv2 : SeqInv idxs (seq ++ contributors idxs (seq.getD i 0)) (i + 1) :=
        seqInv_step idxs seq i (seq.getD i 0) inv hcond.1 rfl
      have hpush : pushRowAux mat (seq.getD i 0) idxs.length 0 width seq =
          seq ++ contributors idxs (seq.getD i 0) := by
        have hg := pushRowAux_go mat (seq.getD i 0) idxs.length
          (contributors idxs (seq.getD i 0)) (hmat _ htlt).2
          (fun x hx => by
            have h1 := ((contributors_mem idxs _ x).mp hx).1
            omega)
          width 0 seq (by have h1 := (hmat _ htlt).1; omega)
        rw [List.drop_zero] at hg
        rw [hg]
        exact append_guard_eq idxs.length _ seq inv2.nodup inv2.mem_lt
      rw [hstep, hpush]
      exact ih _ (i + 1) inv2 (by omega)
    · have hexit : seqLoop mat width idxs.length (fuel2 + 1) seq i = seq := by
        show (if i < seq.length ∧ i < idxs.length then
            seqLoop mat width idxs.length fuel2
              (pushRowAux mat (seq.getD i 0) idxs.length 0 width seq) (i + 1)
          else seq) = seq
        rw [if_neg hcond]
      rw [hexit]
      have hlen : seq.length ≤ idxs.length :=
        nodup_bounded_length _ _ inv.nodup inv.mem_lt
      have h1 := inv.hi
      have hieq : i = seq.length := by
        rcases Decidable.not_and_iff_or_not.mp hcond with h | h
        · omega
        · omega
      exact hieq ▸ inv

/-- At the exit state of the loop, every cell whose downstream chain
reaches a pit is in the sequence: pits are seeded and each contributor
of a processed cell is appended. -/
theorem seqInv_complete (idxs : List Nat) (seq : List Nat)
    (inv : SeqInv idxs seq seq.length) :
    ∀ x, ReachesN idxs x → x ∈ seq := by
  intro x h
  induction h with
  | pit c hc hp => exact inv.pits_in c hc hp
  | step c hc h ih =>
    by_cases hp : idxs.getD c 0 = c
    · exact inv.pits_in c hc hp
    · obtain ⟨p, hpl, hpe⟩ := mem_getD_pos seq _ ih
      apply inv.closed p hpl
      rw [hpe]
      exact (contributors_mem idxs _ c).mpr ⟨hc, rfl, fun he => hp he.symm⟩

/-- Pit reachability over the usize downstream array coincides with pit
reachability of the rank loop over its i32 cast, for in-range entries
of an i32-addressable array. -/
theorem reachesN_iff_reaches (idxs : List Nat)
    (hn : idxs.length ≤ 2147483648)
    (hwf : ∀ c, c < idxs.length → idxs.getD c 0 = c ∨ idxs.getD c 0 < idxs.length) :
    ∀ c, ReachesN idxs c ↔ Reaches (idxs.map toI32) c := by
  have hlt : ∀ c, c < idxs.length → idxs.getD c 0 < idxs.length := by
    intro c hc
    rcases hwf c hc with h | h
    · rw [h]
      exact hc
    · exact h
  have hlen : (idxs.map toI32).length = idxs.length := by simp
  have hgetD : ∀ c, c < idxs.length →
      (idxs.map toI32).getD c 0 = ((idxs.getD c 0 : Nat) : Int) := by
    intro c hc
    have h1 : (idxs.map toI32).get ⟨c, by rw [hlen]; exact hc⟩ =
        toI32 (idxs.get ⟨c, hc⟩) := by
      simp
    have h2 : idxs.get ⟨c, hc⟩ = idxs.getD c 0 := by
      rw [List.getD_eq_getElem idxs 0 hc]
      simp
    have h3 : (idxs.map toI32).getD c 0 =
        (idxs.map toI32).get ⟨c, by rw [hlen]; exact hc⟩ := by
      rw [List.getD_eq_getElem _ 0 (by rw [hlen]; exact hc)]
      simp
    rw [h3, h1, h2, toI32_small _ (by have h4 := hlt c hc; omega)]
  have hds : ∀ c, c < idxs.length → dstep (idxs.map toI32) c = idxs.getD c 0 := by
    intro c hc
    rw [dstep, hgetD c hc]
    exact asUsize_ofNat _ (by have h3 := hlt c hc; omega)
  have hpitEq : ∀ c, c < idxs.length →
      ((idxs.map toI32).getD c 0 = toI32 c ↔ idxs.getD c 0 = c) := by
    intro c hc
    rw [hgetD c hc, toI32_small c (by omega)]
    constructor
    · intro h
      exact_mod_cast h
    · intro h
      exact_mod_cast h
  intro c
  constructor
  · intro h
    induction h with
    | pit c hc hp =>
      exact Reaches.pit c (by rw [hlen]; exact hc) ((hpitEq c hc).mpr hp)
    | step c hc h ih =>
      refine Reaches.step c (by rw [hlen]; exact hc) ?_
      rw [hds c hc]
      exact ih
  · intro h
    induction h with
    | pit c hc hp =>
      have hc2 : c < idxs.length := by rw [hlen] at hc; exact hc
      exact ReachesN.pit c hc2 ((hpitEq c hc2).mp hp)
    | step c hc h ih =>
      have hc2 : c < idxs.length := by rw [hlen] at hc; exact hc
      refine ReachesN.step c hc2 ?_
      rw [← hds c hc2]
      exact ih

/-- Two duplicate-free lists with the same members have the same
length. -/
theorem length_eq_of_nodup_mem_iff (A B : List Nat) (ha : A.Nodup) (hb : B.Nodup)
    (h : ∀ x, x ∈ A ↔ x ∈ B) : A.length = B.length := by
  rw [← List.toFinset_card_of_nodup ha, ← List.toFinset_card_of_nodup hb]
  congr 1
  ext x
  simp only [List.mem_toFinset]
  exact h x

/-- C5 (amended): for a downstream-index array whose entries are each
the cell itself or an in-range index, whose length is i32-addressable,
and in which every cell has at most 127 direct contributors (so the i8
fan-in counters feeding the upstream matrix cannot wrap, the condition
the fan-in overflow counterexample violates), the sequence produced by
idxs_seq from the pit_indices pit list has no duplicate indices, places
every non-pit entry strictly after its downstream target, and has
length equal to the number of cells whose rank is non-negative. -/
theorem idxs_seq_spec (idxs : List Nat) (pits : List Bool)
    (hn : idxs.length ≤ 2147483648)
    (hwf : ∀ c, c < idxs.length → idxs.getD c 0 = c ∨ idxs.getD c 0 < idxs.length)
    (hfan : ∀ t, t < idxs.length → (contributors idxs t).length ≤ 127) :
    (idxs_seq idxs (pit_indices idxs)).Nodup ∧
    (∀ j, j < (idxs_seq idxs (pit_indices idxs)).length →
      idxs.getD ((idxs_seq idxs (pit_indices idxs)).getD j 0) 0 ≠
        (idxs_seq idxs (pit_indices idxs)).getD j 0 →
      ∃ p, p < j ∧ (idxs_seq idxs (pit_indices idxs)).getD p 0 =
        idxs.getD ((idxs_seq idxs (pit_indices idxs)).getD j 0) 0) ∧
    (idxs_seq idxs (pit_indices idxs)).length =
      ((List.range idxs.length).filter
        (fun c => decide (0 ≤ (rank (idxs.map toI32) pits).1 c))).length := by
  have hunf : idxs_seq idxs (pit_indices idxs) =
      seqLoop (upstream_matrix idxs).1 (upstream_matrix idxs).2 idxs.length
        idxs.length (initSeq (pit_indices idxs) idxs.length) 0 := rfl
  have hinit : initSeq (pit_indices idxs) idxs.length = pit_indices idxs :=
    initSeq_eq _ _ (pit_indices_nodup idxs)
      (fun x hx => ((pit_indices_mem idxs x).mp hx).1)
  have hfinal := seqLoop_spec idxs (upstream_matrix idxs).1 (upstream_matrix idxs).2
    hn (upstream_matrix_spec idxs hfan) idxs.length (pit_indices idxs) 0
    (seqInv_init idxs) (by omega)
  rw [hunf, hinit]
  refine ⟨hfinal.nodup, hfinal.ds_earlier, ?_⟩
  apply length_eq_of_nodup_mem_iff _ _ hfinal.nodup
    (List.Nodup.filter _ (List.nodup_range _))
  intro x
  simp only [List.mem_filter, List.mem_range, decide_eq_true_eq]
  constructor
  · intro hx
    have hxn : x < idxs.length := hfinal.mem_lt x hx
    refine ⟨hxn, ?_⟩
    exact (rank_nonneg_iff (idxs.map toI32) (by simpa using hn) pits x
      (by simpa using hxn)).mpr
      ((reachesN_iff_reaches idxs hn hwf x).mp (hfinal.reach x hx))
  · intro hx
    exact seqInv_complete idxs _ hfinal x
      ((reachesN_iff_reaches idxs hn hwf x).mpr
        ((rank_nonneg_iff (idxs.map toI32) (by simpa using hn) pits x
          (by simpa using hx.1)).mp hx.2))

/-- Witness for C5 at the core.rs unit-test array [1, 2, 2]: the
sequence [2, 1, 0] is duplicate-free, downstream-first, and as long as
the count of non-negative ranks. -/
theorem idxs_seq_spec_witness :
    (idxs_seq [1, 2, 2] (pit_indices [1, 2, 2])).Nodup ∧
    (∀ j, j < (idxs_seq [1, 2, 2] (pit_indices [1, 2, 2])).length →
      ([1, 2, 2] : List Nat).getD ((idxs_seq [1, 2, 2] (pit_indices [1, 2, 2])).getD j 0) 0 ≠
        (idxs_seq [1, 2, 2] (pit_indices [1, 2, 2])).getD j 0 →
      ∃ p, p < j ∧ (idxs_seq [1, 2, 2] (pit_indices [1, 2, 2])).getD p 0 =
        ([1, 2, 2] : List Nat).getD ((idxs_seq [1, 2, 2] (pit_indices [1, 2, 2])).getD j 0) 0) ∧
    (idxs_seq [1, 2, 2] (pit_indices [1, 2, 2])).length =
      ((List.range ([1, 2, 2] : List Nat).length).filter
        (fun c => decide (0 ≤ (rank (([1, 2, 2] : List Nat).map toI32)
          [false, false, true]).1 c))).length :=
  idxs_seq_spec [1, 2, 2] [false, false, true] (by decide) (by decide) (by decide)
end Pyflwdir
